import Mathlib

/-!
Verification of the batch image renamer (`batch_rename_images.py`, the full
variant, and `simple_rename.py`, the minimal variant).

The filesystem directory is modelled as a list of entries (name, is-file flag);
renaming is name replacement.  Python string operations used by the scripts
(`str.lower` on ASCII, `Path.suffix`, `f"{i:04d}"`, `int(...)`, string
comparison by code point) are embedded as executable Lean functions.
-/

namespace BatchRename

/-! ### Python string order (code-point lexicographic, as `sorted` uses) -/

def charsLt : List Char → List Char → Bool
  | _, [] => false
  | [], _ :: _ => true
  | a :: as, b :: bs => a.toNat < b.toNat || (a.toNat == b.toNat && charsLt as bs)

/-- `a ≤ b` in Python's string order. -/
def pyLe (a b : String) : Prop := charsLt b.toList a.toList = false

instance : DecidableRel pyLe := fun _ _ => instDecidableEqBool _ _

/-- `sorted(...)` on a list of names within one folder. -/
def sortNames (l : List String) : List String := List.insertionSort pyLe l

/-! ### Python `str.lower` (ASCII), `Path.suffix`, `f"{i:04d}"` -/

def lowerChar (c : Char) : Char :=
  if 65 ≤ c.toNat ∧ c.toNat ≤ 90 then Char.ofNat (c.toNat + 32) else c

def pyLower (s : String) : String := String.mk (s.toList.map lowerChar)

/-- Index of the last `'.'` in a character list, if any. -/
def lastDotIdx : List Char → Option Nat
  | [] => none
  | c :: cs =>
    match lastDotIdx cs with
    | some i => some (i + 1)
    | none => if c = '.' then some 0 else none

/-- `PurePath.suffix`: the part from the last dot on, unless the dot is
leading or trailing. -/
def pySuffix (nm : String) : String :=
  let cs := nm.toList
  match lastDotIdx cs with
  | some i => if 0 < i ∧ i < cs.length - 1 then String.mk (cs.drop i) else ""
  | none => ""

def digitChar (d : Nat) : Char := Char.ofNat (48 + d)

/-- Decimal digits of `n`, most significant first (fuel-based so it computes
by `decide`). -/
def natCharsAux : Nat → Nat → List Char
  | 0, _ => []
  | fuel + 1, n =>
    if n < 10 then [digitChar n]
    else natCharsAux fuel (n / 10) ++ [digitChar (n % 10)]

def natChars (n : Nat) : List Char := natCharsAux (n + 1) n

def leftPad (w : Nat) (cs : List Char) : List Char :=
  List.replicate (w - cs.length) '0' ++ cs

/-- Python `f"{i:04d}"`: zero-pad to total width 4, sign included. -/
def pad4 (i : Int) : String :=
  if i < 0 then String.mk ('-' :: leftPad 3 (natChars i.natAbs))
  else String.mk (leftPad 4 (natChars i.toNat))

/-- Line 74 of the full variant / line 46 of the simple one:
`f"{i:04d}{file_path.suffix.lower()}"`. -/
def targetName (i : Int) (nm : String) : String := pad4 i ++ pyLower (pySuffix nm)

/-! ### Directory model -/

structure Entry where
  name : String
  isFile : Bool
deriving DecidableEq, Repr

inductive FolderState where
  | missing
  | notDir
  | dir (entries : List Entry)
deriving DecidableEq, Repr

/-- `IMAGE_EXTENSIONS` of the full variant. -/
def IMAGE_EXTENSIONS : List String :=
  [".jpg", ".jpeg", ".png", ".gif", ".bmp", ".tiff", ".tif",
   ".webp", ".svg", ".ico", ".raw", ".cr2", ".nef", ".arw"]

/-- `image_extensions` of the simple variant. -/
def SIMPLE_EXTENSIONS : List String :=
  [".jpg", ".jpeg", ".png", ".gif", ".bmp", ".tiff", ".webp"]

/-- `file_path.is_file() and file_path.suffix.lower() in extensions`. -/
def isImageEntry (exts : List String) (e : Entry) : Bool :=
  e.isFile && exts.contains (pyLower (pySuffix e.name))

/-- Enumeration: filter eligible entries in listing order, then sort names. -/
def imageFilesSorted (exts : List String) (es : List Entry) : List String :=
  sortNames ((es.filter (isImageEntry exts)).map Entry.name)

def entryExists (es : List Entry) (nm : String) : Bool :=
  es.any (fun e => e.name == nm)

/-- A guarded in-place rename: the entry called `old` gets name `new`
(used by the full variant, which never renames onto an existing name). -/
def renameEntry (es : List Entry) (old new : String) : List Entry :=
  es.map (fun e => if e.name = old then { e with name := new } else e)

/-- `os.rename` as `Path.rename` performs it on POSIX: silently replaces an
existing file at the target, errors if the target is a non-file. -/
def posixRename (es : List Entry) (old new : String) : Option (List Entry) :=
  if es.any (fun e => e.name == new && !e.isFile) then none
  else some ((es.filter (fun e => e.name != new)).map
    (fun e => if e.name = old then { e with name := new } else e))

/-! ### Per-file outcomes -/

inductive Outcome where
  | alreadyNamed (name : String)
  | collision (name target : String)
  | renamed (name target : String)
  | failed (name target : String)
deriving DecidableEq, Repr

def Outcome.outName : Outcome → String
  | .alreadyNamed n => n
  | .collision n _ => n
  | .renamed n _ => n
  | .failed n _ => n

def Outcome.outTarget : Outcome → String
  | .alreadyNamed n => n
  | .collision _ t => t
  | .renamed _ t => t
  | .failed _ t => t

def Outcome.isAlready : Outcome → Bool
  | .alreadyNamed _ => true
  | _ => false

def Outcome.isCollision : Outcome → Bool
  | .collision _ _ => true
  | _ => false

def Outcome.isRenamed : Outcome → Bool
  | .renamed _ _ => true
  | _ => false

def Outcome.isFailed : Outcome → Bool
  | .failed _ _ => true
  | _ => false

/-! ### The full variant: `rename_images` (lines 42-100) -/

structure LoopResult where
  final : List Entry
  outcomes : List Outcome
  count : Nat
  calls : Nat
deriving DecidableEq, Repr

/-- The `for i, file_path in enumerate(image_files, start=start_number)` loop
(lines 72-95).  `failsOn` injects `OSError` at the `file_path.rename` call;
`calls` counts invocations of the underlying rename operation. -/
def renameLoop (failsOn : List String) (dryRun : Bool) :
    List String → Int → List Entry → LoopResult
  | [], _, es => ⟨es, [], 0, 0⟩
  | nm :: rest, i, es =>
    let newName := targetName i nm
    if nm = newName then
      let r := renameLoop failsOn dryRun rest (i + 1) es
      ⟨r.final, .alreadyNamed nm :: r.outcomes, r.count, r.calls⟩
    else if entryExists es newName && newName != nm then
      let r := renameLoop failsOn dryRun rest (i + 1) es
      ⟨r.final, .collision nm newName :: r.outcomes, r.count, r.calls⟩
    else if dryRun then
      let r := renameLoop failsOn dryRun rest (i + 1) es
      ⟨r.final, .renamed nm newName :: r.outcomes, r.count, r.calls⟩
    else if failsOn.contains nm then
      let r := renameLoop failsOn dryRun rest (i + 1) es
      ⟨r.final, .failed nm newName :: r.outcomes, r.count, r.calls + 1⟩
    else
      let r := renameLoop failsOn dryRun rest (i + 1) (renameEntry es nm newName)
      ⟨r.final, .renamed nm newName :: r.outcomes, r.count + 1, r.calls + 1⟩

/-- Python `list.index`: position of the first occurrence. -/
def pyIndex (f : String) : List String → Nat
  | [] => 0
  | g :: gs => if g = f then 0 else pyIndex f gs + 1

/-- Line 100: `len([f for f in image_files if f.name != f"{image_files.index(f)+start_number:04d}{f.suffix.lower()}"])`. -/
def dryReportedCount (files : List String) (start : Int) : Nat :=
  (files.filter (fun f => f ≠ targetName (start + (pyIndex f files : Int)) f)).length

structure RunReport where
  finalFolder : FolderState
  outcomes : List Outcome
  fatal : Bool
  summaryCount : Nat
  renameCalls : Nat
deriving DecidableEq, Repr

/-- `rename_images(folder_path, start_number, dry_run)`; `summaryCount` is the
final printed count (renamed count live, "Would rename" count in dry-run). -/
def rename_images (folder : FolderState) (start : Int) (dryRun : Bool)
    (failsOn : List String) : RunReport :=
  match folder with
  | .missing => ⟨.missing, [], true, 0, 0⟩
  | .notDir => ⟨.notDir, [], true, 0, 0⟩
  | .dir es =>
    let files := imageFilesSorted IMAGE_EXTENSIONS es
    if files.isEmpty then ⟨.dir es, [], false, 0, 0⟩
    else
      let r := renameLoop failsOn dryRun files start es
      ⟨.dir r.final, r.outcomes, false,
        if dryRun then dryReportedCount files start else r.count, r.calls⟩

/-! ### The simple variant: `rename_images_in_folder` (lines 11-60) -/

inductive AbortKind where
  | ranOk
  | errorReturn
  | crashed
deriving DecidableEq, Repr

/-- Lines 44-58: no collision check; `Path.rename` replaces an existing
target file (POSIX), and any raised error is caught and the loop continues. -/
def simpleLoop (failsOn : List String) :
    List String → Int → List Entry → List Entry × List Outcome
  | [], _, es => (es, [])
  | nm :: rest, i, es =>
    let newName := targetName i nm
    if nm = newName then
      let r := simpleLoop failsOn rest (i + 1) es
      (r.1, .alreadyNamed nm :: r.2)
    else if failsOn.contains nm then
      let r := simpleLoop failsOn rest (i + 1) es
      (r.1, .failed nm newName :: r.2)
    else
      match posixRename es nm newName with
      | none =>
        let r := simpleLoop failsOn rest (i + 1) es
        (r.1, .failed nm newName :: r.2)
      | some es' =>
        let r := simpleLoop failsOn rest (i + 1) es'
        (r.1, .renamed nm newName :: r.2)

structure SimpleReport where
  finalFolder : FolderState
  outcomes : List Outcome
  abort : AbortKind
deriving DecidableEq, Repr

/-- `rename_images_in_folder(folder_path)`.  A missing folder is a printed
error return; a non-directory path crashes on `iterdir` (uncaught
`NotADirectoryError`), before any file is touched. -/
def rename_images_in_folder (folder : FolderState) (failsOn : List String) :
    SimpleReport :=
  match folder with
  | .missing => ⟨.missing, [], .errorReturn⟩
  | .notDir => ⟨.notDir, [], .crashed⟩
  | .dir es =>
    let files := imageFilesSorted SIMPLE_EXTENSIONS es
    if files.isEmpty then ⟨.dir es, [], .ranOk⟩
    else
      let r := simpleLoop failsOn files 1 es
      ⟨.dir r.1, r.2, .ranOk⟩

/-! ### The CLI of the full variant: `main` (lines 102-138) -/

inductive MainResult where
  | usageExit
  | missingNumberExit
  | invalidNumberExit
  | run (folderPath : String) (startNumber : Int) (dryRun : Bool)
deriving DecidableEq, Repr

def isPySpace (c : Char) : Bool :=
  c == ' ' || c == '\t' || c == '\n' || c == '\r' || c.toNat == 11 || c.toNat == 12

/-- Digits of a Python `int` literal after the first: single underscores
allowed between digits only. -/
def digitsGo (acc : Nat) : List Char → Option Nat
  | [] => some acc
  | '_' :: c :: cs =>
    if c.isDigit then digitsGo (acc * 10 + (c.toNat - 48)) cs else none
  | ['_'] => none
  | c :: cs =>
    if c.isDigit then digitsGo (acc * 10 + (c.toNat - 48)) cs else none

def parseDigits : List Char → Option Nat
  | [] => none
  | c :: cs => if c.isDigit then digitsGo (c.toNat - 48) cs else none

/-- Python `int(s)` on ASCII input: optional surrounding whitespace, optional
sign, decimal digits with underscore separators. -/
def pyInt (s : String) : Option Int :=
  let cs := ((s.toList.dropWhile isPySpace).reverse.dropWhile isPySpace).reverse
  match cs with
  | '+' :: rest => (parseDigits rest).map (fun n => (n : Int))
  | '-' :: rest => (parseDigits rest).map (fun n => -(n : Int))
  | rest => (parseDigits rest).map (fun n => (n : Int))

/-- Argument handling of `main` (lines 104-130): usage exit without a folder
argument, `--start-number` parsing with its two exit-1 paths, defaults. -/
def pyMain (argv : List String) : MainResult :=
  if h2 : argv.length < 2 then .usageExit
  else
    let dryRun := argv.contains "--dry-run"
    if argv.contains "--start-number" then
      let idx := pyIndex "--start-number" argv
      if h : idx + 1 < argv.length then
        match pyInt (argv.get ⟨idx + 1, h⟩) with
        | some n => .run (argv.get ⟨1, by omega⟩) n dryRun
        | none => .invalidNumberExit
      else .missingNumberExit
    else .run (argv.get ⟨1, by omega⟩) 1 dryRun

/-- Target names of the plan in sequence order, starting at `start`. -/
def targetsFrom (start : Int) : List String → List String
  | [] => []
  | nm :: rest => targetName start nm :: targetsFrom (start + 1) rest

/-! ### The embedded string order is a linear order, so sorting is canonical -/

theorem charsLt_irrefl : ∀ l : List Char, charsLt l l = false
  | [] => rfl
  | a :: as => by simp [charsLt, charsLt_irrefl as]

theorem charToNat_inj {a b : Char} (h : a.toNat = b.toNat) : a = b := by
  unfold Char.toNat at h
  exact Char.eq_of_val_eq (UInt32.toNat.inj h)

theorem charsLt_trans : ∀ (a b c : List Char),
    charsLt a b = true → charsLt b c = true → charsLt a c = true := by
  intro a
  induction a with
  | nil =>
    intro b c h1 h2
    cases c with
    | nil => cases b <;> simp [charsLt] at h1 h2
    | cons z zs => simp [charsLt]
  | cons x xs ih =>
    intro b c h1 h2
    cases b with
    | nil => simp [charsLt] at h1
    | cons y ys =>
      cases c with
      | nil => simp [charsLt] at h2
      | cons z zs =>
        simp only [charsLt, Bool.or_eq_true, Bool.and_eq_true, decide_eq_true_eq,
          beq_iff_eq] at h1 h2 ⊢
        rcases h1 with h1 | ⟨e1, t1⟩ <;> rcases h2 with h2 | ⟨e2, t2⟩
        · exact Or.inl (by omega)
        · exact Or.inl (by omega)
        · exact Or.inl (by omega)
        · exact Or.inr ⟨e1.trans e2, ih ys zs t1 t2⟩

theorem charsLt_conn : ∀ (a b : List Char),
    charsLt a b = false → charsLt b a = false → a = b := by
  intro a
  induction a with
  | nil =>
    intro b h1 _
    cases b with
    | nil => rfl
    | cons y ys => simp [charsLt] at h1
  | cons x xs ih =>
    intro b h1 h2
    cases b with
    | nil => simp [charsLt] at h2
    | cons y ys =>
      by_cases hxy : x.toNat < y.toNat
      · simp [charsLt, hxy] at h1
      · by_cases hyx : y.toNat < x.toNat
        · simp [charsLt, hyx] at h2
        · have hx : x = y := charToNat_inj (by omega)
          subst hx
          have hA : charsLt xs ys = false := by simpa [charsLt] using h1
          have hB : charsLt ys xs = false := by simpa [charsLt] using h2
          rw [ih ys hA hB]

theorem pyLe_total : ∀ a b : String, pyLe a b ∨ pyLe b a := by
  intro a b
  unfold pyLe
  cases h1 : charsLt b.toList a.toList with
  | false => exact Or.inl rfl
  | true =>
    cases h2 : charsLt a.toList b.toList with
    | false => exact Or.inr rfl
    | true =>
      have h3 := charsLt_trans _ _ _ h1 h2
      rw [charsLt_irrefl] at h3
      exact absurd h3 (by simp)

instance : IsTotal String pyLe := ⟨pyLe_total⟩

theorem pyLe_trans : ∀ a b c : String, pyLe a b → pyLe b c → pyLe a c := by
  intro a b c h1 h2
  unfold pyLe at h1 h2 ⊢
  cases hca : charsLt c.toList a.toList with
  | false => rfl
  | true =>
    exfalso
    cases hbc : charsLt b.toList c.toList with
    | true =>
      have h3 := charsLt_trans _ _ _ hbc hca
      rw [h1] at h3
      exact Bool.noConfusion h3
    | false =>
      have hbceq := charsLt_conn _ _ hbc h2
      rw [← hbceq] at hca
      rw [h1] at hca
      exact Bool.noConfusion hca

instance : IsTrans String pyLe := ⟨pyLe_trans⟩

theorem pyLe_antisymm : ∀ a b : String, pyLe a b → pyLe b a → a = b := by
  intro a b h1 h2
  exact String.toList_inj.mp (charsLt_conn _ _ h2 h1)

instance : IsAntisymm String pyLe := ⟨pyLe_antisymm⟩

theorem sortNames_perm (l : List String) : List.Perm (sortNames l) l :=
  List.perm_insertionSort pyLe l

theorem sortNames_sorted (l : List String) : List.Sorted pyLe (sortNames l) :=
  List.sorted_insertionSort pyLe l

theorem sortNames_eq_of_perm {l l' : List String} (h : List.Perm l l') :
    sortNames l = sortNames l' :=
  List.eq_of_perm_of_sorted
    ((sortNames_perm l).trans (h.trans (sortNames_perm l').symm))
    (sortNames_sorted l) (sortNames_sorted l')

theorem any_perm {α : Type} {l l' : List α} (h : List.Perm l l') (p : α → Bool) :
    l.any p = l'.any p := by
  cases hb : l'.any p with
  | true =>
    rw [List.any_eq_true] at hb ⊢
    obtain ⟨e, he, hp⟩ := hb
    exact ⟨e, h.mem_iff.mpr he, hp⟩
  | false =>
    rw [List.any_eq_false] at hb ⊢
    intro e he
    exact hb e (h.mem_iff.mp he)

/-! ### Step lemmas: the five branches of the full-variant loop body -/

theorem renameLoop_step_already (failsOn : List String) (dryRun : Bool)
    (nm : String) (rest : List String) (i : Int) (es : List Entry)
    (h : nm = targetName i nm) :
    renameLoop failsOn dryRun (nm :: rest) i es =
      ⟨(renameLoop failsOn dryRun rest (i + 1) es).final,
       .alreadyNamed nm :: (renameLoop failsOn dryRun rest (i + 1) es).outcomes,
       (renameLoop failsOn dryRun rest (i + 1) es).count,
       (renameLoop failsOn dryRun rest (i + 1) es).calls⟩ := by
  simp only [renameLoop]
  rw [if_pos h]

theorem renameLoop_step_collision (failsOn : List String) (dryRun : Bool)
    (nm : String) (rest : List String) (i : Int) (es : List Entry)
    (h1 : nm ≠ targetName i nm) (h2 : entryExists es (targetName i nm) = true) :
    renameLoop failsOn dryRun (nm :: rest) i es =
      ⟨(renameLoop failsOn dryRun rest (i + 1) es).final,
       .collision nm (targetName i nm) ::
         (renameLoop failsOn dryRun rest (i + 1) es).outcomes,
       (renameLoop failsOn dryRun rest (i + 1) es).count,
       (renameLoop failsOn dryRun rest (i + 1) es).calls⟩ := by
  have hb : (entryExists es (targetName i nm) && (targetName i nm != nm)) = true := by
    rw [h2, Bool.true_and, bne_iff_ne]
    exact fun hh => h1 hh.symm
  simp only [renameLoop]
  rw [if_neg h1, if_pos hb]

theorem renameLoop_step_dry (failsOn : List String)
    (nm : String) (rest : List String) (i : Int) (es : List Entry)
    (h1 : nm ≠ targetName i nm) (h2 : entryExists es (targetName i nm) = false) :
    renameLoop failsOn true (nm :: rest) i es =
      ⟨(renameLoop failsOn true rest (i + 1) es).final,
       .renamed nm (targetName i nm) ::
         (renameLoop failsOn true rest (i + 1) es).outcomes,
       (renameLoop failsOn true rest (i + 1) es).count,
       (renameLoop failsOn true rest (i + 1) es).calls⟩ := by
  have hb : ¬ ((entryExists es (targetName i nm) && (targetName i nm != nm)) = true) := by
    rw [h2, Bool.false_and]
    exact Bool.false_ne_true
  simp only [renameLoop]
  rw [if_neg h1, if_neg hb]
  simp only [if_true]

theorem renameLoop_step_failed (failsOn : List String)
    (nm : String) (rest : List String) (i : Int) (es : List Entry)
    (h1 : nm ≠ targetName i nm) (h2 : entryExists es (targetName i nm) = false)
    (h3 : failsOn.contains nm = true) :
    renameLoop failsOn false (nm :: rest) i es =
      ⟨(renameLoop failsOn false rest (i + 1) es).final,
       .failed nm (targetName i nm) ::
         (renameLoop failsOn false rest (i + 1) es).outcomes,
       (renameLoop failsOn false rest (i + 1) es).count,
       (renameLoop failsOn false rest (i + 1) es).calls + 1⟩ := by
  have hb : ¬ ((entryExists es (targetName i nm) && (targetName i nm != nm)) = true) := by
    rw [h2, Bool.false_and]
    exact Bool.false_ne_true
  simp only [renameLoop]
  rw [if_neg h1, if_neg hb, if_pos h3]
  simp

theorem renameLoop_step_renamed (failsOn : List String)
    (nm : String) (rest : List String) (i : Int) (es : List Entry)
    (h1 : nm ≠ targetName i nm) (h2 : entryExists es (targetName i nm) = false)
    (h3 : failsOn.contains nm = false) :
    renameLoop failsOn false (nm :: rest) i es =
      ⟨(renameLoop failsOn false rest (i + 1)
          (renameEntry es nm (targetName i nm))).final,
       .renamed nm (targetName i nm) ::
         (renameLoop failsOn false rest (i + 1)
           (renameEntry es nm (targetName i nm))).outcomes,
       (renameLoop failsOn false rest (i + 1)
         (renameEntry es nm (targetName i nm))).count + 1,
       (renameLoop failsOn false rest (i + 1)
         (renameEntry es nm (targetName i nm))).calls + 1⟩ := by
  have hb : ¬ ((entryExists es (targetName i nm) && (targetName i nm != nm)) = true) := by
    rw [h2, Bool.false_and]
    exact Bool.false_ne_true
  have hc : ¬ (failsOn.contains nm = true) := by
    rw [h3]
    exact Bool.false_ne_true
  simp only [renameLoop]
  rw [if_neg h1, if_neg hb, if_neg hc]
  simp

/-! ### General facts about the full-variant loop -/

theorem renameLoop_outNames (failsOn : List String) (dryRun : Bool) :
    ∀ (files : List String) (i : Int) (es : List Entry),
      (renameLoop failsOn dryRun files i es).outcomes.map Outcome.outName = files := by
  intro files
  induction files with
  | nil => intro i es; rfl
  | cons nm rest ih =>
    intro i es
    by_cases h1 : nm = targetName i nm
    · rw [renameLoop_step_already failsOn dryRun nm rest i es h1]
      simp [Outcome.outName, ih]
    · cases h2 : entryExists es (targetName i nm) with
      | true =>
        rw [renameLoop_step_collision failsOn dryRun nm rest i es h1 h2]
        simp [Outcome.outName, ih]
      | false =>
        cases dryRun with
        | true =>
          rw [renameLoop_step_dry failsOn nm rest i es h1 h2]
          simp [Outcome.outName, ih]
        | false =>
          cases h3 : failsOn.contains nm with
          | true =>
            rw [renameLoop_step_failed failsOn nm rest i es h1 h2 h3]
            simp [Outcome.outName, ih]
          | false =>
            rw [renameLoop_step_renamed failsOn nm rest i es h1 h2 h3]
            simp [Outcome.outName, ih]

theorem renameLoop_outTargets (failsOn : List String) (dryRun : Bool) :
    ∀ (files : List String) (i : Int) (es : List Entry),
      (renameLoop failsOn dryRun files i es).outcomes.map Outcome.outTarget =
        targetsFrom i files := by
  intro files
  induction files with
  | nil => intro i es; rfl
  | cons nm rest ih =>
    intro i es
    by_cases h1 : nm = targetName i nm
    · rw [renameLoop_step_already failsOn dryRun nm rest i es h1]
      simp only [List.map_cons, Outcome.outTarget, targetsFrom, ih]
      rw [← h1]
    · cases h2 : entryExists es (targetName i nm) with
      | true =>
        rw [renameLoop_step_collision failsOn dryRun nm rest i es h1 h2]
        simp [Outcome.outTarget, targetsFrom, ih]
      | false =>
        cases dryRun with
        | true =>
          rw [renameLoop_step_dry failsOn nm rest i es h1 h2]
          simp [Outcome.outTarget, targetsFrom, ih]
        | false =>
          cases h3 : failsOn.contains nm with
          | true =>
            rw [renameLoop_step_failed failsOn nm rest i es h1 h2 h3]
            simp [Outcome.outTarget, targetsFrom, ih]
          | false =>
            rw [renameLoop_step_renamed failsOn nm rest i es h1 h2 h3]
            simp [Outcome.outTarget, targetsFrom, ih]

theorem renameLoop_length (failsOn : List String) (dryRun : Bool)
    (files : List String) (i : Int) (es : List Entry) :
    (renameLoop failsOn dryRun files i es).outcomes.length = files.length := by
  have h := congrArg List.length (renameLoop_outNames failsOn dryRun files i es)
  simpa using h

theorem renameLoop_dry (failsOn : List String) :
    ∀ (files : List String) (i : Int) (es : List Entry),
      (renameLoop failsOn true files i es).final = es ∧
      (renameLoop failsOn true files i es).count = 0 ∧
      (renameLoop failsOn true files i es).calls = 0 := by
  intro files
  induction files with
  | nil => intro i es; exact ⟨rfl, rfl, rfl⟩
  | cons nm rest ih =>
    intro i es
    by_cases h1 : nm = targetName i nm
    · rw [renameLoop_step_already failsOn true nm rest i es h1]
      simpa using ih (i + 1) es
    · cases h2 : entryExists es (targetName i nm) with
      | true =>
        rw [renameLoop_step_collision failsOn true nm rest i es h1 h2]
        simpa using ih (i + 1) es
      | false =>
        rw [renameLoop_step_dry failsOn nm rest i es h1 h2]
        simpa using ih (i + 1) es

theorem renameLoop_nofail (dryRun : Bool) :
    ∀ (files : List String) (i : Int) (es : List Entry),
      ∀ o ∈ (renameLoop [] dryRun files i es).outcomes, o.isFailed = false := by
  intro files
  induction files with
  | nil => intro i es o ho; simp [renameLoop] at ho
  | cons nm rest ih =>
    intro i es o ho
    by_cases h1 : nm = targetName i nm
    · rw [renameLoop_step_already [] dryRun nm rest i es h1] at ho
      simp only [List.mem_cons] at ho
      rcases ho with rfl | ho
      · rfl
      · exact ih (i + 1) es o ho
    · cases h2 : entryExists es (targetName i nm) with
      | true =>
        rw [renameLoop_step_collision [] dryRun nm rest i es h1 h2] at ho
        simp only [List.mem_cons] at ho
        rcases ho with rfl | ho
        · rfl
        · exact ih (i + 1) es o ho
      | false =>
        cases dryRun with
        | true =>
          rw [renameLoop_step_dry [] nm rest i es h1 h2] at ho
          simp only [List.mem_cons] at ho
          rcases ho with rfl | ho
          · rfl
          · exact ih (i + 1) es o ho
        | false =>
          rw [renameLoop_step_renamed [] nm rest i es h1 h2 rfl] at ho
          simp only [List.mem_cons] at ho
          rcases ho with rfl | ho
          · rfl
          · exact ih (i + 1) _ o ho

theorem renameLoop_count (failsOn : List String) :
    ∀ (files : List String) (i : Int) (es : List Entry),
      (renameLoop failsOn false files i es).count =
        (renameLoop failsOn false files i es).outcomes.countP Outcome.isRenamed := by
  intro files
  induction files with
  | nil => intro i es; rfl
  | cons nm rest ih =>
    intro i es
    by_cases h1 : nm = targetName i nm
    · rw [renameLoop_step_already failsOn false nm rest i es h1]
      simp [List.countP_cons, Outcome.isRenamed, ih]
    · cases h2 : entryExists es (targetName i nm) with
      | true =>
        rw [renameLoop_step_collision failsOn false nm rest i es h1 h2]
        simp [List.countP_cons, Outcome.isRenamed, ih]
      | false =>
        cases h3 : failsOn.contains nm with
        | true =>
          rw [renameLoop_step_failed failsOn nm rest i es h1 h2 h3]
          simp [List.countP_cons, Outcome.isRenamed, ih]
        | false =>
          rw [renameLoop_step_renamed failsOn nm rest i es h1 h2 h3]
          simp [List.countP_cons, Outcome.isRenamed, ih]

theorem renameLoop_perm (failsOn : List String) (dryRun : Bool) :
    ∀ (files : List String) (i : Int) {es es' : List Entry}, List.Perm es es' →
      (renameLoop failsOn dryRun files i es).outcomes =
        (renameLoop failsOn dryRun files i es').outcomes ∧
      (renameLoop failsOn dryRun files i es).count =
        (renameLoop failsOn dryRun files i es').count ∧
      (renameLoop failsOn dryRun files i es).calls =
        (renameLoop failsOn dryRun files i es').calls := by
  intro files
  induction files with
  | nil => intro i es es' h; exact ⟨rfl, rfl, rfl⟩
  | cons nm rest ih =>
    intro i es es' hp
    have hex : entryExists es (targetName i nm) = entryExists es' (targetName i nm) :=
      any_perm hp _
    by_cases h1 : nm = targetName i nm
    · rw [renameLoop_step_already failsOn dryRun nm rest i es h1,
        renameLoop_step_already failsOn dryRun nm rest i es' h1]
      simpa using ih (i + 1) hp
    · cases h2 : entryExists es (targetName i nm) with
      | true =>
        rw [renameLoop_step_collision failsOn dryRun nm rest i es h1 h2,
          renameLoop_step_collision failsOn dryRun nm rest i es' h1 (hex ▸ h2)]
        simpa using ih (i + 1) hp
      | false =>
        cases dryRun with
        | true =>
          rw [renameLoop_step_dry failsOn nm rest i es h1 h2,
            renameLoop_step_dry failsOn nm rest i es' h1 (hex ▸ h2)]
          simpa using ih (i + 1) hp
        | false =>
          cases h3 : failsOn.contains nm with
          | true =>
            rw [renameLoop_step_failed failsOn nm rest i es h1 h2 h3,
              renameLoop_step_failed failsOn nm rest i es' h1 (hex ▸ h2) h3]
            simpa using ih (i + 1) hp
          | false =>
            rw [renameLoop_step_renamed failsOn nm rest i es h1 h2 h3,
              renameLoop_step_renamed failsOn nm rest i es' h1 (hex ▸ h2) h3]
            simpa using ih (i + 1) (hp.map _)

/-! ### The dry-run "Would rename" count of line 100 -/

theorem pyIndex_cons_self (f : String) (gs : List String) : pyIndex f (f :: gs) = 0 := by
  simp [pyIndex]

theorem pyIndex_cons_ne {f g : String} (gs : List String) (h : g ≠ f) :
    pyIndex f (g :: gs) = pyIndex f gs + 1 := by
  simp [pyIndex, h]

theorem dryReported_countP (failsOn : List String) :
    ∀ (files : List String) (start : Int) (es : List Entry), files.Nodup →
      dryReportedCount files start =
        (renameLoop failsOn true files start es).outcomes.countP
          (fun o => !o.isAlready) := by
  intro files
  induction files with
  | nil => intro start es _; rfl
  | cons nm rest ih =>
    intro start es hnd
    have hnm : nm ∉ rest := (List.nodup_cons.mp hnd).1
    have hrest : rest.Nodup := (List.nodup_cons.mp hnd).2
    have hfilter :
        dryReportedCount (nm :: rest) start =
          (if nm = targetName start nm then 0 else 1) +
            dryReportedCount rest (start + 1) := by
      unfold dryReportedCount
      have hcongr :
          rest.filter
              (fun f => f ≠ targetName (start + (pyIndex f (nm :: rest) : Int)) f) =
            rest.filter
              (fun f => f ≠ targetName (start + 1 + (pyIndex f rest : Int)) f) := by
        apply List.filter_congr
        intro f hf
        have hne : nm ≠ f := fun h => hnm (h ▸ hf)
        rw [pyIndex_cons_ne rest hne]
        have harith : start + ((pyIndex f rest + 1 : Nat) : Int) =
            start + 1 + (pyIndex f rest : Int) := by push_cast; ring
        rw [harith]
      rw [List.filter_cons, pyIndex_cons_self]
      simp only [Nat.cast_zero, add_zero]
      rw [hcongr]
      by_cases h : nm = targetName start nm
      · rw [if_neg (by rw [decide_eq_true_eq]; exact not_not_intro h), if_pos h]
        omega
      · rw [if_pos (by rw [decide_eq_true_eq]; exact h), if_neg h]
        rw [List.length_cons]
        omega
    rw [hfilter, ih (start + 1) es hrest]
    by_cases h1 : nm = targetName start nm
    · rw [renameLoop_step_already failsOn true nm rest start es h1, if_pos h1]
      simp [List.countP_cons, Outcome.isAlready]
    · rw [if_neg h1]
      cases h2 : entryExists es (targetName start nm) with
      | true =>
        rw [renameLoop_step_collision failsOn true nm rest start es h1 h2]
        simp only [List.countP_cons, Outcome.isAlready, Bool.not_false, if_true]
        omega
      | false =>
        rw [renameLoop_step_dry failsOn nm rest start es h1 h2]
        simp only [List.countP_cons, Outcome.isAlready, Bool.not_false, if_true]
        omega

/-! ### Step lemmas for the simple variant's loop -/

theorem simpleLoop_step_already (failsOn : List String) (nm : String)
    (rest : List String) (i : Int) (es : List Entry) (h : nm = targetName i nm) :
    simpleLoop failsOn (nm :: rest) i es =
      ((simpleLoop failsOn rest (i + 1) es).1,
       .alreadyNamed nm :: (simpleLoop failsOn rest (i + 1) es).2) := by
  simp only [simpleLoop]
  rw [if_pos h]

theorem simpleLoop_step_failinj (failsOn : List String) (nm : String)
    (rest : List String) (i : Int) (es : List Entry)
    (h1 : nm ≠ targetName i nm) (h3 : failsOn.contains nm = true) :
    simpleLoop failsOn (nm :: rest) i es =
      ((simpleLoop failsOn rest (i + 1) es).1,
       .failed nm (targetName i nm) :: (simpleLoop failsOn rest (i + 1) es).2) := by
  simp only [simpleLoop]
  rw [if_neg h1, if_pos h3]

theorem simpleLoop_step_oserr (failsOn : List String) (nm : String)
    (rest : List String) (i : Int) (es : List Entry)
    (h1 : nm ≠ targetName i nm) (h3 : failsOn.contains nm = false)
    (h4 : posixRename es nm (targetName i nm) = none) :
    simpleLoop failsOn (nm :: rest) i es =
      ((simpleLoop failsOn rest (i + 1) es).1,
       .failed nm (targetName i nm) :: (simpleLoop failsOn rest (i + 1) es).2) := by
  have hc : ¬ (failsOn.contains nm = true) := by
    rw [h3]
    exact Bool.false_ne_true
  simp only [simpleLoop]
  rw [if_neg h1, if_neg hc, h4]

theorem simpleLoop_step_renamed (failsOn : List String) (nm : String)
    (rest : List String) (i : Int) (es es' : List Entry)
    (h1 : nm ≠ targetName i nm) (h3 : failsOn.contains nm = false)
    (h4 : posixRename es nm (targetName i nm) = some es') :
    simpleLoop failsOn (nm :: rest) i es =
      ((simpleLoop failsOn rest (i + 1) es').1,
       .renamed nm (targetName i nm) :: (simpleLoop failsOn rest (i + 1) es').2) := by
  have hc : ¬ (failsOn.contains nm = true) := by
    rw [h3]
    exact Bool.false_ne_true
  simp only [simpleLoop]
  rw [if_neg h1, if_neg hc, h4]

theorem simpleLoop_perm (failsOn : List String) :
    ∀ (files : List String) (i : Int) {es es' : List Entry}, List.Perm es es' →
      (simpleLoop failsOn files i es).2 = (simpleLoop failsOn files i es').2 := by
  intro files
  induction files with
  | nil => intro i es es' _; rfl
  | cons nm rest ih =>
    intro i es es' hp
    by_cases h1 : nm = targetName i nm
    · rw [simpleLoop_step_already failsOn nm rest i es h1,
        simpleLoop_step_already failsOn nm rest i es' h1]
      simpa using ih (i + 1) hp
    · cases h3 : failsOn.contains nm with
      | true =>
        rw [simpleLoop_step_failinj failsOn nm rest i es h1 h3,
          simpleLoop_step_failinj failsOn nm rest i es' h1 h3]
        simpa using ih (i + 1) hp
      | false =>
        have hguard : (es.any fun e => e.name == targetName i nm && !e.isFile) =
            (es'.any fun e => e.name == targetName i nm && !e.isFile) :=
          any_perm hp _
        cases hg : (es.any fun e => e.name == targetName i nm && !e.isFile) with
        | true =>
          have h4 : posixRename es nm (targetName i nm) = none := by
            unfold posixRename
            rw [if_pos hg]
          have h4' : posixRename es' nm (targetName i nm) = none := by
            unfold posixRename
            rw [if_pos (hguard ▸ hg)]
          rw [simpleLoop_step_oserr failsOn nm rest i es h1 h3 h4,
            simpleLoop_step_oserr failsOn nm rest i es' h1 h3 h4']
          simpa using ih (i + 1) hp
        | false =>
          have h4 : posixRename es nm (targetName i nm) =
              some ((es.filter (fun e => e.name != targetName i nm)).map
                (fun e => if e.name = nm then { e with name := targetName i nm }
                  else e)) := by
            unfold posixRename
            rw [if_neg (by rw [hg]; exact Bool.false_ne_true)]
          have h4' : posixRename es' nm (targetName i nm) =
              some ((es'.filter (fun e => e.name != targetName i nm)).map
                (fun e => if e.name = nm then { e with name := targetName i nm }
                  else e)) := by
            unfold posixRename
            rw [if_neg (by rw [← hguard, hg]; exact Bool.false_ne_true)]
          rw [simpleLoop_step_renamed failsOn nm rest i es _ h1 h3 h4,
            simpleLoop_step_renamed failsOn nm rest i es' _ h1 h3 h4']
          simpa using ih (i + 1) ((hp.filter _).map _)

/-! ### Enumeration facts -/

theorem imageFilesSorted_perm (exts : List String) {es es' : List Entry}
    (h : List.Perm es es') :
    imageFilesSorted exts es = imageFilesSorted exts es' :=
  sortNames_eq_of_perm ((h.filter _).map _)

theorem files_nodup (exts : List String) {es : List Entry}
    (h : (es.map Entry.name).Nodup) : (imageFilesSorted exts es).Nodup := by
  unfold imageFilesSorted
  refine (sortNames_perm _).nodup_iff.mpr ?_
  exact List.Nodup.sublist (List.Sublist.map _ (List.filter_sublist es)) h

/-! ### Positional form of the planned targets -/

theorem targetsFrom_getD :
    ∀ (files : List String) (start : Int) (i : Nat), i < files.length →
      (targetsFrom start files).getD i "" =
        targetName (start + (i : Int)) (files.getD i "") := by
  intro files
  induction files with
  | nil => intro start i h; simp at h
  | cons nm rest ih =>
    intro start i h
    cases i with
    | zero => simp [targetsFrom]
    | succ j =>
      simp only [targetsFrom, List.getD_cons_succ]
      rw [ih (start + 1) j (by simpa using h)]
      have harith : start + 1 + (j : Int) = start + ((j + 1 : Nat) : Int) := by
        push_cast
        ring
      rw [harith]

/-- Appending to a fixed string on the left is injective. -/
theorem strAppend_left_cancel {s a b : String} (h : s ++ a = s ++ b) : a = b := by
  have hd : s.data ++ a.data = s.data ++ b.data := by
    have h2 := congrArg String.data h
    simpa [String.data_append] using h2
  exact String.toList_inj.mp (List.append_cancel_left hd)

/-! ### The simple variant's loop also walks the files in order -/

theorem simpleLoop_outNames (failsOn : List String) :
    ∀ (files : List String) (i : Int) (es : List Entry),
      (simpleLoop failsOn files i es).2.map Outcome.outName = files := by
  intro files
  induction files with
  | nil => intro i es; rfl
  | cons nm rest ih =>
    intro i es
    by_cases h1 : nm = targetName i nm
    · rw [simpleLoop_step_already failsOn nm rest i es h1]
      simp [Outcome.outName, ih]
    · cases h3 : failsOn.contains nm with
      | true =>
        rw [simpleLoop_step_failinj failsOn nm rest i es h1 h3]
        simp [Outcome.outName, ih]
      | false =>
        cases hg : (es.any fun e => e.name == targetName i nm && !e.isFile) with
        | true =>
          have h4 : posixRename es nm (targetName i nm) = none := by
            unfold posixRename
            rw [if_pos hg]
          rw [simpleLoop_step_oserr failsOn nm rest i es h1 h3 h4]
          simp [Outcome.outName, ih]
        | false =>
          have h4 : posixRename es nm (targetName i nm) =
              some ((es.filter (fun e => e.name != targetName i nm)).map
                (fun e => if e.name = nm then { e with name := targetName i nm }
                  else e)) := by
            unfold posixRename
            rw [if_neg (by rw [hg]; exact Bool.false_ne_true)]
          rw [simpleLoop_step_renamed failsOn nm rest i es _ h1 h3 h4]
          simp [Outcome.outName, ih]

theorem simpleLoop_outTargets (failsOn : List String) :
    ∀ (files : List String) (i : Int) (es : List Entry),
      (simpleLoop failsOn files i es).2.map Outcome.outTarget =
        targetsFrom i files := by
  intro files
  induction files with
  | nil => intro i es; rfl
  | cons nm rest ih =>
    intro i es
    by_cases h1 : nm = targetName i nm
    · rw [simpleLoop_step_already failsOn nm rest i es h1]
      simp only [List.map_cons, Outcome.outTarget, targetsFrom, ih]
      rw [← h1]
    · cases h3 : failsOn.contains nm with
      | true =>
        rw [simpleLoop_step_failinj failsOn nm rest i es h1 h3]
        simp [Outcome.outTarget, targetsFrom, ih]
      | false =>
        cases hg : (es.any fun e => e.name == targetName i nm && !e.isFile) with
        | true =>
          have h4 : posixRename es nm (targetName i nm) = none := by
            unfold posixRename
            rw [if_pos hg]
          rw [simpleLoop_step_oserr failsOn nm rest i es h1 h3 h4]
          simp [Outcome.outTarget, targetsFrom, ih]
        | false =>
          have h4 : posixRename es nm (targetName i nm) =
              some ((es.filter (fun e => e.name != targetName i nm)).map
                (fun e => if e.name = nm then { e with name := targetName i nm }
                  else e)) := by
            unfold posixRename
            rw [if_neg (by rw [hg]; exact Bool.false_ne_true)]
          rw [simpleLoop_step_renamed failsOn nm rest i es _ h1 h3 h4]
          simp [Outcome.outTarget, targetsFrom, ih]

/-! ## Claim theorems -/

/-- C1: in both variants the eligible files are processed in sorted name
order, and the file at 0-based position `i` of that order is assigned target
name `pad4(startNumber + i)` concatenated with its original extension
lower-cased (the simple variant always starts at 1); the targets depend only
on the input order and the start number (the loops are run here on an
arbitrary state `es` and failure set, and the target sequence is the same). -/
theorem c1_sorted_order_positional_targets (es : List Entry) (start : Int)
    (dryRun : Bool) (failsOn : List String) :
    (List.Sorted pyLe (imageFilesSorted IMAGE_EXTENSIONS es) ∧
      (renameLoop failsOn dryRun (imageFilesSorted IMAGE_EXTENSIONS es) start
        es).outcomes.map Outcome.outName = imageFilesSorted IMAGE_EXTENSIONS es ∧
      ∀ i : Nat, i < (imageFilesSorted IMAGE_EXTENSIONS es).length →
        ((renameLoop failsOn dryRun (imageFilesSorted IMAGE_EXTENSIONS es) start
            es).outcomes.map Outcome.outTarget).getD i "" =
          pad4 (start + (i : Int)) ++
            pyLower (pySuffix
              ((imageFilesSorted IMAGE_EXTENSIONS es).getD i ""))) ∧
    (List.Sorted pyLe (imageFilesSorted SIMPLE_EXTENSIONS es) ∧
      (simpleLoop failsOn (imageFilesSorted SIMPLE_EXTENSIONS es) 1
        es).2.map Outcome.outName = imageFilesSorted SIMPLE_EXTENSIONS es ∧
      ∀ i : Nat, i < (imageFilesSorted SIMPLE_EXTENSIONS es).length →
        ((simpleLoop failsOn (imageFilesSorted SIMPLE_EXTENSIONS es) 1
            es).2.map Outcome.outTarget).getD i "" =
          pad4 (1 + (i : Int)) ++
            pyLower (pySuffix
              ((imageFilesSorted SIMPLE_EXTENSIONS es).getD i ""))) := by
  constructor
  · refine ⟨sortNames_sorted _, renameLoop_outNames _ _ _ _ _, ?_⟩
    intro i h
    rw [renameLoop_outTargets]
    exact targetsFrom_getD _ start i h
  · refine ⟨sortNames_sorted _, simpleLoop_outNames _ _ _ _, ?_⟩
    intro i h
    rw [simpleLoop_outTargets]
    exact targetsFrom_getD _ 1 i h

/-- Witness for C1: `--start-number 100` on three files `a.jpg`, `b.jpg`,
`c.PNG` (listed unsorted) assigns targets `0100.jpg`, `0101.jpg`, `0102.png`
in sorted input order. -/
theorem c1_witness :
    (2 : Nat) < (imageFilesSorted IMAGE_EXTENSIONS
      [⟨"c.PNG", true⟩, ⟨"a.jpg", true⟩, ⟨"b.jpg", true⟩]).length ∧
    ((renameLoop [] false (imageFilesSorted IMAGE_EXTENSIONS
        [⟨"c.PNG", true⟩, ⟨"a.jpg", true⟩, ⟨"b.jpg", true⟩]) 100
        [⟨"c.PNG", true⟩, ⟨"a.jpg", true⟩, ⟨"b.jpg", true⟩]).outcomes.map
        Outcome.outTarget).getD 0 "" = "0100.jpg" ∧
    ((renameLoop [] false (imageFilesSorted IMAGE_EXTENSIONS
        [⟨"c.PNG", true⟩, ⟨"a.jpg", true⟩, ⟨"b.jpg", true⟩]) 100
        [⟨"c.PNG", true⟩, ⟨"a.jpg", true⟩, ⟨"b.jpg", true⟩]).outcomes.map
        Outcome.outTarget).getD 2 "" = "0102.png" ∧
    ((simpleLoop [] (imageFilesSorted SIMPLE_EXTENSIONS
        [⟨"c.PNG", true⟩, ⟨"a.jpg", true⟩, ⟨"b.jpg", true⟩]) 1
        [⟨"c.PNG", true⟩, ⟨"a.jpg", true⟩, ⟨"b.jpg", true⟩]).2.map
        Outcome.outTarget).getD 2 "" = "0003.png" := by
  refine ⟨by decide, ?_, ?_, ?_⟩
  · have h := ((c1_sorted_order_positional_targets
      [⟨"c.PNG", true⟩, ⟨"a.jpg", true⟩, ⟨"b.jpg", true⟩] 100 false []).1).2.2 0
      (by decide)
    rw [h]
    decide
  · have h := ((c1_sorted_order_positional_targets
      [⟨"c.PNG", true⟩, ⟨"a.jpg", true⟩, ⟨"b.jpg", true⟩] 100 false []).1).2.2 2
      (by decide)
    rw [h]
    decide
  · have h := ((c1_sorted_order_positional_targets
      [⟨"c.PNG", true⟩, ⟨"a.jpg", true⟩, ⟨"b.jpg", true⟩] 100 false []).2).2.2 2
      (by decide)
    rw [h]
    decide

/-- C2 counterexample: the claim fails on the simple variant, which performs
no collision check.  With files `0000.png` and `0001.png`, the entry
`0000.png -> 0001.png` has a pre-existing different file at the target name,
yet it is renamed (not skipped) and the pre-existing `0001.png` is destroyed:
of two files only one remains. -/
theorem c2_counterexample :
    (rename_images_in_folder
        (.dir [⟨"0000.png", true⟩, ⟨"0001.png", true⟩]) []).outcomes =
      [.renamed "0000.png" "0001.png", .renamed "0001.png" "0002.png"] ∧
    (rename_images_in_folder
        (.dir [⟨"0000.png", true⟩, ⟨"0001.png", true⟩]) []).finalFolder =
      .dir [⟨"0002.png", true⟩] := by
  exact ⟨rfl, rfl⟩

/-- C2 amended: in the full variant only, an entry whose target name exists on
the filesystem as a different file at the moment of that entry's rename is
skipped with a collision outcome, the state is left untouched by that entry,
and no rename call is made for it (the check runs against the current state
`es`, not a pre-scan snapshot); the simple variant has no such check and
silently replaces the pre-existing file. -/
theorem c2_full_variant_collision_skip (failsOn : List String) (dryRun : Bool)
    (nm : String) (rest : List String) (i : Int) (es : List Entry)
    (h1 : nm ≠ targetName i nm)
    (h2 : entryExists es (targetName i nm) = true) :
    (renameLoop failsOn dryRun (nm :: rest) i es).outcomes =
      .collision nm (targetName i nm) ::
        (renameLoop failsOn dryRun rest (i + 1) es).outcomes ∧
    (renameLoop failsOn dryRun (nm :: rest) i es).final =
      (renameLoop failsOn dryRun rest (i + 1) es).final ∧
    (renameLoop failsOn dryRun (nm :: rest) i es).count =
      (renameLoop failsOn dryRun rest (i + 1) es).count ∧
    (renameLoop failsOn dryRun (nm :: rest) i es).calls =
      (renameLoop failsOn dryRun rest (i + 1) es).calls := by
  rw [renameLoop_step_collision failsOn dryRun nm rest i es h1 h2]
  exact ⟨rfl, rfl, rfl, rfl⟩

/-- Witness for the amended C2: a pre-existing directory entry `0001.jpg`
blocks renaming `b.jpg` to `0001.jpg`; the entry is collision-skipped and the
folder is unchanged. -/
theorem c2_witness :
    "b.jpg" ≠ targetName 1 "b.jpg" ∧
    entryExists [⟨"0001.jpg", false⟩, ⟨"b.jpg", true⟩]
      (targetName 1 "b.jpg") = true ∧
    (renameLoop [] false ["b.jpg"] 1
        [⟨"0001.jpg", false⟩, ⟨"b.jpg", true⟩]).outcomes =
      [.collision "b.jpg" "0001.jpg"] ∧
    (renameLoop [] false ["b.jpg"] 1
        [⟨"0001.jpg", false⟩, ⟨"b.jpg", true⟩]).final =
      [⟨"0001.jpg", false⟩, ⟨"b.jpg", true⟩] := by
  refine ⟨by decide, by decide, ?_, ?_⟩
  · have h := (c2_full_variant_collision_skip [] false "b.jpg" [] 1
      [⟨"0001.jpg", false⟩, ⟨"b.jpg", true⟩] (by decide) (by decide)).1
    rw [h]
    decide
  · have h := (c2_full_variant_collision_skip [] false "b.jpg" [] 1
      [⟨"0001.jpg", false⟩, ⟨"b.jpg", true⟩] (by decide) (by decide)).2.1
    rw [h]
    decide

/-- C7: for a missing path or a path that is not a directory, both variants
fail before any renaming: the error is reported (the simple variant crashes on
an uncaught `NotADirectoryError` for a non-directory), no per-file outcome is
produced, and the filesystem is untouched. -/
theorem c7_directory_errors_fatal (start : Int) (dryRun : Bool)
    (failsOn : List String) :
    rename_images .missing start dryRun failsOn = ⟨.missing, [], true, 0, 0⟩ ∧
    rename_images .notDir start dryRun failsOn = ⟨.notDir, [], true, 0, 0⟩ ∧
    rename_images_in_folder .missing failsOn = ⟨.missing, [], .errorReturn⟩ ∧
    rename_images_in_folder .notDir failsOn = ⟨.notDir, [], .crashed⟩ :=
  ⟨rfl, rfl, rfl, rfl⟩

/-- C10: a file whose name already carries its correct sequence number but an
upper-case extension is not treated as already named: the check compares
against the lower-cased-extension target, so (with the target name free and no
injected failure) the entry is renamed to the lower-case form in both
variants. -/
theorem c10_uppercase_extension_renamed (failsOn : List String) (nm : String)
    (rest : List String) (i : Int) (es : List Entry)
    (hname : nm = pad4 i ++ pySuffix nm)
    (hcase : pySuffix nm ≠ pyLower (pySuffix nm))
    (hex : entryExists es (targetName i nm) = false)
    (hfail : failsOn.contains nm = false) :
    (renameLoop failsOn false (nm :: rest) i es).outcomes =
      .renamed nm (targetName i nm) ::
        (renameLoop failsOn false rest (i + 1)
          (renameEntry es nm (targetName i nm))).outcomes ∧
    (simpleLoop failsOn (nm :: rest) i es).2.head? =
      some (.renamed nm (targetName i nm)) := by
  have h1 : nm ≠ targetName i nm := by
    intro heq
    apply hcase
    have h6 : pad4 i ++ pySuffix nm = pad4 i ++ pyLower (pySuffix nm) :=
      hname.symm.trans heq
    exact strAppend_left_cancel h6
  constructor
  · rw [renameLoop_step_renamed failsOn nm rest i es h1 hex hfail]
  · have hguard : (es.any fun e => e.name == targetName i nm && !e.isFile) =
        false := by
      rw [List.any_eq_false]
      intro e he
      have h5 := List.any_eq_false.mp hex e he
      intro hcontra
      rw [Bool.and_eq_true] at hcontra
      exact h5 hcontra.1
    have h4 : posixRename es nm (targetName i nm) =
        some ((es.filter (fun e => e.name != targetName i nm)).map
          (fun e => if e.name = nm then { e with name := targetName i nm }
            else e)) := by
      unfold posixRename
      rw [if_neg (by rw [hguard]; exact Bool.false_ne_true)]
    rw [simpleLoop_step_renamed failsOn nm rest i es _ h1 hfail h4]
    rfl

/-- Witness for C10: `0001.JPG` with start number 1 is renamed to `0001.jpg`
rather than skipped. -/
theorem c10_witness :
    "0001.JPG" = pad4 1 ++ pySuffix "0001.JPG" ∧
    (renameLoop [] false ["0001.JPG"] 1 [⟨"0001.JPG", true⟩]).outcomes =
      [.renamed "0001.JPG" "0001.jpg"] ∧
    (renameLoop [] false ["0001.JPG"] 1 [⟨"0001.JPG", true⟩]).final =
      [⟨"0001.jpg", true⟩] := by
  refine ⟨by decide, ?_, by decide⟩
  have h := (c10_uppercase_extension_renamed [] "0001.JPG" [] 1
    [⟨"0001.JPG", true⟩] (by decide) (by decide) (by decide) (by decide)).1
  rw [h]
  decide

/-- C4: in dry-run mode the underlying rename operation is never invoked and
the filesystem after the run equals the one before it, while enumeration and
planning (the processed name sequence and the computed target sequence) are
identical to live mode. -/
theorem c4_dry_run_no_mutation (folder : FolderState) (start : Int)
    (failsOn : List String) :
    (rename_images folder start true failsOn).renameCalls = 0 ∧
    (rename_images folder start true failsOn).finalFolder = folder ∧
    (rename_images folder start true failsOn).outcomes.map Outcome.outName =
      (rename_images folder start false failsOn).outcomes.map Outcome.outName ∧
    (rename_images folder start true failsOn).outcomes.map Outcome.outTarget =
      (rename_images folder start false failsOn).outcomes.map Outcome.outTarget := by
  cases folder with
  | missing => exact ⟨rfl, rfl, rfl, rfl⟩
  | notDir => exact ⟨rfl, rfl, rfl, rfl⟩
  | dir es =>
    simp only [rename_images]
    by_cases hemp : (imageFilesSorted IMAGE_EXTENSIONS es).isEmpty = true
    · rw [if_pos hemp, if_pos hemp]
      exact ⟨rfl, rfl, rfl, rfl⟩
    · rw [if_neg hemp, if_neg hemp]
      dsimp only
      refine ⟨(renameLoop_dry failsOn _ start es).2.2, ?_, ?_, ?_⟩
      · rw [(renameLoop_dry failsOn _ start es).1]
      · rw [renameLoop_outNames, renameLoop_outNames]
      · rw [renameLoop_outTargets, renameLoop_outTargets]

/-- C5 counterexample: with a directory entry `0001.jpg` and a file `b.jpg`,
the dry run classifies its one entry as a collision skip (and the live run
renames nothing), yet the final report of line 100 says one file would be
renamed. -/
theorem c5_counterexample :
    (rename_images (.dir [⟨"0001.jpg", false⟩, ⟨"b.jpg", true⟩]) 1 true
        []).summaryCount = 1 ∧
    (rename_images (.dir [⟨"0001.jpg", false⟩, ⟨"b.jpg", true⟩]) 1 true
        []).outcomes =
      [.collision "b.jpg" "0001.jpg"] ∧
    (rename_images (.dir [⟨"0001.jpg", false⟩, ⟨"b.jpg", true⟩]) 1 false
        []).summaryCount = 0 :=
  ⟨rfl, rfl, rfl⟩

/-- C5 amended: the dry-run reported would-rename count equals the number of
entries not classified as already-named skips; collision-skipped entries are
counted as would-renames, so the count can exceed the entries the predicate
logic classifies as renames. -/
theorem c5_amended_dry_count (es : List Entry) (start : Int)
    (failsOn : List String) (h : (es.map Entry.name).Nodup) :
    (rename_images (.dir es) start true failsOn).summaryCount =
      (rename_images (.dir es) start true failsOn).outcomes.countP
        (fun o => !o.isAlready) := by
  have hnd := files_nodup IMAGE_EXTENSIONS h
  simp only [rename_images]
  by_cases hemp : (imageFilesSorted IMAGE_EXTENSIONS es).isEmpty = true
  · rw [if_pos hemp]
    rfl
  · rw [if_neg hemp]
    dsimp only
    rw [if_pos trivial]
    exact dryReported_countP failsOn _ start es hnd

/-- Witness for the amended C5: on files `0002.jpg`, `zzz.jpg` the dry-run
report (2) equals the number of non-already entries (a would-rename plus a
collision skip). -/
theorem c5_witness :
    (([⟨"0002.jpg", true⟩, ⟨"zzz.jpg", true⟩] : List Entry).map
      Entry.name).Nodup ∧
    (rename_images (.dir [⟨"0002.jpg", true⟩, ⟨"zzz.jpg", true⟩]) 1 true
        []).summaryCount =
      (rename_images (.dir [⟨"0002.jpg", true⟩, ⟨"zzz.jpg", true⟩]) 1 true
        []).outcomes.countP (fun o => !o.isAlready) :=
  ⟨by decide, c5_amended_dry_count [⟨"0002.jpg", true⟩, ⟨"zzz.jpg", true⟩] 1 []
    (by decide)⟩

/-- C6: a filesystem-level failure at one entry is recorded as a failure for
that entry only and the loop continues over the remaining entries against the
unchanged state; every remaining entry still receives an outcome and the
summary count reflects exactly the renamed entries; the simple variant
isolates the failure the same way. -/
theorem c6_per_file_failure_isolated (failsOn : List String) (nm : String)
    (rest : List String) (i : Int) (es : List Entry)
    (h1 : nm ≠ targetName i nm)
    (h2 : entryExists es (targetName i nm) = false)
    (h3 : failsOn.contains nm = true) :
    (renameLoop failsOn false (nm :: rest) i es).outcomes =
      .failed nm (targetName i nm) ::
        (renameLoop failsOn false rest (i + 1) es).outcomes ∧
    (renameLoop failsOn false (nm :: rest) i es).final =
      (renameLoop failsOn false rest (i + 1) es).final ∧
    (renameLoop failsOn false (nm :: rest) i es).count =
      (renameLoop failsOn false rest (i + 1) es).count ∧
    (renameLoop failsOn false rest (i + 1) es).outcomes.length = rest.length ∧
    (renameLoop failsOn false (nm :: rest) i es).count =
      (renameLoop failsOn false (nm :: rest) i es).outcomes.countP
        Outcome.isRenamed ∧
    (simpleLoop failsOn (nm :: rest) i es).2 =
      .failed nm (targetName i nm) :: (simpleLoop failsOn rest (i + 1) es).2 := by
  refine ⟨?_, ?_, ?_, renameLoop_length failsOn false rest (i + 1) es,
    renameLoop_count failsOn (nm :: rest) i es, ?_⟩
  · rw [renameLoop_step_failed failsOn nm rest i es h1 h2 h3]
  · rw [renameLoop_step_failed failsOn nm rest i es h1 h2 h3]
  · rw [renameLoop_step_failed failsOn nm rest i es h1 h2 h3]
  · rw [simpleLoop_step_failinj failsOn nm rest i es h1 h3]

/-- Witness for C6: five files with an injected permission error on the
second; the remaining three are still processed and the count is 3. -/
theorem c6_witness :
    (renameLoop ["b.jpg"] false ["b.jpg", "c.jpg", "d.jpg", "e.jpg"] 2
        [⟨"0001.jpg", true⟩, ⟨"b.jpg", true⟩, ⟨"c.jpg", true⟩,
         ⟨"d.jpg", true⟩, ⟨"e.jpg", true⟩]).outcomes =
      [.failed "b.jpg" "0002.jpg", .renamed "c.jpg" "0003.jpg",
       .renamed "d.jpg" "0004.jpg", .renamed "e.jpg" "0005.jpg"] ∧
    (renameLoop ["b.jpg"] false ["b.jpg", "c.jpg", "d.jpg", "e.jpg"] 2
        [⟨"0001.jpg", true⟩, ⟨"b.jpg", true⟩, ⟨"c.jpg", true⟩,
         ⟨"d.jpg", true⟩, ⟨"e.jpg", true⟩]).count = 3 := by
  have h := c6_per_file_failure_isolated ["b.jpg"] "b.jpg"
    ["c.jpg", "d.jpg", "e.jpg"] 2
    [⟨"0001.jpg", true⟩, ⟨"b.jpg", true⟩, ⟨"c.jpg", true⟩,
     ⟨"d.jpg", true⟩, ⟨"e.jpg", true⟩] (by decide) (by decide) (by decide)
  constructor
  · rw [h.1]
    decide
  · rw [h.2.2.1]
    decide

/-- C8: if `--start-number` is passed with a missing or non-integer following
argument, `main` exits non-zero during argument parsing (before `rename_images`
and hence before any filesystem access); with the flag absent the start number
defaults to 1. -/
theorem c8_start_number_cli (argv : List String) (h2 : 2 ≤ argv.length) :
    ("--start-number" ∈ argv →
      (argv.length ≤ pyIndex "--start-number" argv + 1 →
        pyMain argv = .missingNumberExit) ∧
      (∀ h : pyIndex "--start-number" argv + 1 < argv.length,
        pyInt (argv.get ⟨pyIndex "--start-number" argv + 1, h⟩) = none →
          pyMain argv = .invalidNumberExit)) ∧
    ("--start-number" ∉ argv →
      pyMain argv = .run (argv.get ⟨1, by omega⟩) 1
        (argv.contains "--dry-run")) := by
  constructor
  · intro hmem
    have hc : argv.contains "--start-number" = true :=
      List.elem_eq_true_of_mem hmem
    constructor
    · intro hlen
      simp only [pyMain]
      rw [dif_neg (by omega), if_pos hc, dif_neg (by omega)]
    · intro h hnone
      simp only [pyMain]
      rw [dif_neg (by omega), if_pos hc, dif_pos h, hnone]
  · intro hmem
    have hc : argv.contains "--start-number" = false := by
      cases hcc : argv.contains "--start-number" with
      | false => rfl
      | true => exact absurd (List.mem_of_elem_eq_true hcc) hmem
    simp only [pyMain]
    rw [dif_neg (by omega), if_neg (by rw [hc]; exact Bool.false_ne_true)]

/-- Witness for C8: a trailing `--start-number` exits as a usage error, a
non-integer argument exits as an invalid number, and without the flag the run
starts at 1. -/
theorem c8_witness :
    pyMain ["prog", "photos", "--start-number"] = .missingNumberExit ∧
    pyMain ["prog", "photos", "--start-number", "abc"] = .invalidNumberExit ∧
    pyMain ["prog", "photos", "--dry-run"] = .run "photos" 1 true := by
  refine ⟨?_, ?_, ?_⟩
  · exact ((c8_start_number_cli ["prog", "photos", "--start-number"]
      (by decide)).1 (by decide)).1 (by decide)
  · exact ((c8_start_number_cli ["prog", "photos", "--start-number", "abc"]
      (by decide)).1 (by decide)).2 (by decide) (by decide)
  · have h := (c8_start_number_cli ["prog", "photos", "--dry-run"]
      (by decide)).2 (by decide)
    rw [h]
    decide

/-- C9: the run is a deterministic function of the set of directory entries:
two listings that are permutations of each other give the full variant the
same outcome sequence and summary count, and the simple variant the same
outcome sequence, whatever order the directory iterator used. -/
theorem c9_listing_order_irrelevant (es es' : List Entry)
    (hp : List.Perm es es') (start : Int) (dryRun : Bool)
    (failsOn : List String) :
    (rename_images (.dir es) start dryRun failsOn).outcomes =
      (rename_images (.dir es') start dryRun failsOn).outcomes ∧
    (rename_images (.dir es) start dryRun failsOn).summaryCount =
      (rename_images (.dir es') start dryRun failsOn).summaryCount ∧
    (rename_images_in_folder (.dir es) failsOn).outcomes =
      (rename_images_in_folder (.dir es') failsOn).outcomes := by
  have hfull := imageFilesSorted_perm IMAGE_EXTENSIONS hp
  have hsimp := imageFilesSorted_perm SIMPLE_EXTENSIONS hp
  simp only [rename_images, rename_images_in_folder]
  rw [hfull, hsimp]
  refine ⟨?_, ?_, ?_⟩
  · by_cases h1 : (imageFilesSorted IMAGE_EXTENSIONS es').isEmpty = true
    · rw [if_pos h1, if_pos h1]
    · rw [if_neg h1, if_neg h1]
      dsimp only
      exact (renameLoop_perm failsOn dryRun _ start hp).1
  · by_cases h1 : (imageFilesSorted IMAGE_EXTENSIONS es').isEmpty = true
    · rw [if_pos h1, if_pos h1]
    · rw [if_neg h1, if_neg h1]
      dsimp only
      cases dryRun with
      | true => rfl
      | false => exact (renameLoop_perm failsOn false _ start hp).2.1
  · by_cases h2 : (imageFilesSorted SIMPLE_EXTENSIONS es').isEmpty = true
    · rw [if_pos h2, if_pos h2]
    · rw [if_neg h2, if_neg h2]
      dsimp only
      exact simpleLoop_perm failsOn _ 1 hp

/-- Witness for C9: the same two files listed in either order produce the
same outcomes. -/
theorem c9_witness :
    List.Perm [Entry.mk "b.jpg" true, Entry.mk "a.jpg" true]
      [Entry.mk "a.jpg" true, Entry.mk "b.jpg" true] ∧
    (rename_images (.dir [⟨"b.jpg", true⟩, ⟨"a.jpg", true⟩]) 1 false
        []).outcomes =
      (rename_images (.dir [⟨"a.jpg", true⟩, ⟨"b.jpg", true⟩]) 1 false
        []).outcomes := by
  have hp : List.Perm [Entry.mk "b.jpg" true, Entry.mk "a.jpg" true]
      [Entry.mk "a.jpg" true, Entry.mk "b.jpg" true] := List.Perm.swap _ _ _
  exact ⟨hp, (c9_listing_order_irrelevant _ _ hp 1 false []).1⟩

/-! ## Decimal formatting facts (towards idempotence) -/

theorem char_toNat_ofNat {n : Nat} (h : n < 55296) : (Char.ofNat n).toNat = n := by
  unfold Char.ofNat
  rw [dif_pos (by left; omega : Nat.isValidChar n)]
  rfl

theorem digitChar_toNat {d : Nat} (h : d < 10) : (digitChar d).toNat = 48 + d := by
  unfold digitChar
  exact char_toNat_ofNat (by omega)

theorem natCharsAux_succ (f n : Nat) :
    natCharsAux (f + 1) n =
      if n < 10 then [digitChar n]
      else natCharsAux f (n / 10) ++ [digitChar (n % 10)] := rfl

theorem natCharsAux_stable (n : Nat) : ∀ (f f' : Nat), n < f → n < f' →
    natCharsAux f n = natCharsAux f' n := by
  induction n using Nat.strong_induction_on with
  | _ n ih =>
    intro f f' hf hf'
    cases f with
    | zero => omega
    | succ f =>
      cases f' with
      | zero => omega
      | succ f' =>
        rw [natCharsAux_succ, natCharsAux_succ]
        by_cases h : n < 10
        · rw [if_pos h, if_pos h]
        · rw [if_neg h, if_neg h]
          have hlt : n / 10 < n := Nat.div_lt_self (by omega) (by omega)
          rw [ih (n / 10) hlt f f' (by omega) (by omega)]

theorem natChars_lt10 {n : Nat} (h : n < 10) : natChars n = [digitChar n] := by
  unfold natChars
  rw [natCharsAux_succ, if_pos h]

theorem natChars_ge10 {n : Nat} (h : 10 ≤ n) :
    natChars n = natChars (n / 10) ++ [digitChar (n % 10)] := by
  unfold natChars
  rw [natCharsAux_succ, if_neg (by omega)]
  have hlt : n / 10 < n := Nat.div_lt_self (by omega) (by omega)
  rw [natCharsAux_stable (n / 10) n (n / 10 + 1) (by omega) (by omega)]

theorem digitChar_zero : ('0' : Char) = digitChar 0 := by decide

theorem pad4_digits {n : Nat} (h : n ≤ 9999) :
    leftPad 4 (natChars n) =
      [digitChar (n / 1000), digitChar (n / 100 % 10),
       digitChar (n / 10 % 10), digitChar (n % 10)] := by
  rcases Nat.lt_or_ge n 10 with h1 | h1
  · rw [natChars_lt10 h1]
    unfold leftPad
    have e1 : n / 1000 = 0 := by omega
    have e2 : n / 100 % 10 = 0 := by omega
    have e3 : n / 10 % 10 = 0 := by omega
    have e4 : n % 10 = n := by omega
    rw [e1, e2, e3, e4]
    rfl
  · rcases Nat.lt_or_ge n 100 with h2 | h2
    · rw [natChars_ge10 h1, natChars_lt10 (show n / 10 < 10 by omega)]
      unfold leftPad
      have e1 : n / 1000 = 0 := by omega
      have e2 : n / 100 % 10 = 0 := by omega
      have e3 : n / 10 % 10 = n / 10 := by omega
      rw [e1, e2, e3]
      rfl
    · rcases Nat.lt_or_ge n 1000 with h3 | h3
      · rw [natChars_ge10 h1, natChars_ge10 (show 10 ≤ n / 10 by omega),
          natChars_lt10 (show n / 10 / 10 < 10 by omega)]
        unfold leftPad
        have e1 : n / 1000 = 0 := by omega
        have e2 : n / 10 / 10 = n / 100 := by omega
        have e3 : n / 10 % 10 = n / 10 % 10 := rfl
        have e4 : n / 100 % 10 = n / 100 := by omega
        rw [e2, e1, e4]
        rfl
      · rw [natChars_ge10 (show 10 ≤ n by omega),
          natChars_ge10 (show 10 ≤ n / 10 by omega),
          natChars_ge10 (show 10 ≤ n / 10 / 10 by omega),
          natChars_lt10 (show n / 10 / 10 / 10 < 10 by omega)]
        unfold leftPad
        have e1 : n / 10 / 10 / 10 = n / 1000 := by omega
        have e2 : n / 10 / 10 % 10 = n / 100 % 10 := by omega
        rw [e1, e2]
        rfl

theorem pad4_nonneg {k : Int} (h0 : 0 ≤ k) (hk : k ≤ 9999) :
    pad4 k = String.mk [digitChar (k.toNat / 1000), digitChar (k.toNat / 100 % 10),
      digitChar (k.toNat / 10 % 10), digitChar (k.toNat % 10)] := by
  unfold pad4
  rw [if_neg (by omega), pad4_digits (by omega)]

theorem pad4_toList {k : Int} (h0 : 0 ≤ k) (hk : k ≤ 9999) :
    (pad4 k).toList =
      [digitChar (k.toNat / 1000), digitChar (k.toNat / 100 % 10),
       digitChar (k.toNat / 10 % 10), digitChar (k.toNat % 10)] := by
  rw [pad4_nonneg h0 hk]
  rfl

/-! ## Comparison facts for padded numerals -/

theorem charsLt_append_of_lt :
    ∀ (xs ys us vs : List Char), xs.length = ys.length →
      charsLt xs ys = true → charsLt (xs ++ us) (ys ++ vs) = true := by
  intro xs
  induction xs with
  | nil =>
    intro ys us vs hlen h
    cases ys with
    | nil => simp [charsLt] at h
    | cons y yy => simp at hlen
  | cons x xx ih =>
    intro ys us vs hlen h
    cases ys with
    | nil => simp at hlen
    | cons y yy =>
      simp only [List.cons_append, charsLt, Bool.or_eq_true, Bool.and_eq_true,
        decide_eq_true_eq, beq_iff_eq] at h ⊢
      rcases h with h | ⟨he, ht⟩
      · exact Or.inl h
      · exact Or.inr ⟨he, ih yy us vs (by simpa using hlen) ht⟩

theorem charsLt_asymm {a b : List Char} (h : charsLt a b = true) :
    charsLt b a = false := by
  cases hb : charsLt b a with
  | false => rfl
  | true =>
    have h2 := charsLt_trans _ _ _ h hb
    rw [charsLt_irrefl] at h2
    exact absurd h2 (by simp)

theorem charsLt_digits {a1 a2 a3 a4 b1 b2 b3 b4 : Nat}
    (ha1 : a1 < 10) (ha2 : a2 < 10) (ha3 : a3 < 10) (ha4 : a4 < 10)
    (hb1 : b1 < 10) (hb2 : b2 < 10) (hb3 : b3 < 10) (hb4 : b4 < 10)
    (hval : a1 * 1000 + a2 * 100 + a3 * 10 + a4 <
      b1 * 1000 + b2 * 100 + b3 * 10 + b4) :
    charsLt [digitChar a1, digitChar a2, digitChar a3, digitChar a4]
      [digitChar b1, digitChar b2, digitChar b3, digitChar b4] = true := by
  simp only [charsLt, Bool.or_eq_true, Bool.and_eq_true, decide_eq_true_eq,
    beq_iff_eq, Bool.and_false, Bool.or_false]
  rw [digitChar_toNat ha1, digitChar_toNat ha2, digitChar_toNat ha3,
    digitChar_toNat ha4, digitChar_toNat hb1, digitChar_toNat hb2,
    digitChar_toNat hb3, digitChar_toNat hb4]
  omega

theorem pad4_lt {j k : Int} (h0 : 0 ≤ j) (hjk : j < k) (hk : k ≤ 9999) :
    charsLt (pad4 j).toList (pad4 k).toList = true := by
  rw [pad4_toList h0 (by omega), pad4_toList (by omega) hk]
  apply charsLt_digits (by omega) (by omega) (by omega) (by omega)
    (by omega) (by omega) (by omega) (by omega)
  omega

/-! ## Lower-casing and suffix facts -/

theorem lowerChar_idem (c : Char) : lowerChar (lowerChar c) = lowerChar c := by
  unfold lowerChar
  by_cases h : 65 ≤ c.toNat ∧ c.toNat ≤ 90
  · rw [if_pos h]
    have ht : (Char.ofNat (c.toNat + 32)).toNat = c.toNat + 32 :=
      char_toNat_ofNat (by omega)
    rw [if_neg (by rw [ht]; omega)]
  · rw [if_neg h, if_neg h]

theorem pyLower_idem (s : String) : pyLower (pyLower s) = pyLower s := by
  unfold pyLower
  have h1 : (String.mk (s.toList.map lowerChar)).toList = s.toList.map lowerChar :=
    rfl
  rw [h1, List.map_map]
  have h2 : lowerChar ∘ lowerChar = lowerChar := funext lowerChar_idem
  rw [h2]

/-- Shape of a well-formed extension: at least two characters, a leading dot,
no other dot. -/
def extOk (ext : String) : Prop :=
  2 ≤ ext.toList.length ∧ ext.toList.head? = some '.' ∧
    ∀ c ∈ ext.toList.tail, c ≠ '.'

instance : DecidablePred extOk := fun ext => by
  unfold extOk
  infer_instance

theorem image_extensions_ok : ∀ ext ∈ IMAGE_EXTENSIONS, extOk ext := by decide

theorem simple_extensions_ok : ∀ ext ∈ SIMPLE_EXTENSIONS, extOk ext := by decide

theorem lastDotIdx_cons (c : Char) (cs : List Char) :
    lastDotIdx (c :: cs) =
      match lastDotIdx cs with
      | some i => some (i + 1)
      | none => if c = '.' then some 0 else none := rfl

theorem lastDotIdx_none {cs : List Char} (h : ∀ c ∈ cs, c ≠ '.') :
    lastDotIdx cs = none := by
  induction cs with
  | nil => rfl
  | cons c cc ih =>
    rw [lastDotIdx_cons, ih (fun x hx => h x (List.mem_cons_of_mem c hx))]
    exact if_neg (h c (List.mem_cons_self c cc))

theorem lastDotIdx_append {cs tail : List Char} (hcs : ∀ c ∈ cs, c ≠ '.')
    (htail : ∀ c ∈ tail, c ≠ '.') :
    lastDotIdx (cs ++ '.' :: tail) = some cs.length := by
  induction cs with
  | nil =>
    show lastDotIdx ('.' :: tail) = some 0
    rw [lastDotIdx_cons, lastDotIdx_none htail]
    exact if_pos rfl
  | cons c cc ih =>
    have hcc : ∀ x ∈ cc, x ≠ '.' :=
      fun x hx => hcs x (List.mem_cons_of_mem c hx)
    show lastDotIdx (c :: (cc ++ '.' :: tail)) = some (cc.length + 1)
    rw [lastDotIdx_cons, ih hcc]

theorem digitChar_ne_dot {d : Nat} (h : d < 10) : digitChar d ≠ '.' := by
  intro he
  have ht := digitChar_toNat h
  rw [he] at ht
  have hdot : ('.' : Char).toNat = 46 := rfl
  omega

theorem pySuffix_pad_ext {k : Int} (h0 : 0 ≤ k) (hk : k ≤ 9999) {ext : String}
    (hext : extOk ext) : pySuffix (pad4 k ++ ext) = ext := by
  obtain ⟨hlen, hhead, htail⟩ := hext
  cases hl : ext.toList with
  | nil => rw [hl] at hlen; simp at hlen
  | cons c tail =>
    have hc : c = '.' := by
      rw [hl] at hhead
      simpa using hhead
    subst hc
    have htail' : ∀ x ∈ tail, x ≠ '.' := by
      intro x hx
      exact htail x (by rw [hl]; exact hx)
    have hdigs : ∀ x ∈ (pad4 k).toList, x ≠ '.' := by
      rw [pad4_toList h0 hk]
      intro x hx
      simp only [List.mem_cons, List.not_mem_nil, or_false] at hx
      rcases hx with rfl | rfl | rfl | rfl
      · exact digitChar_ne_dot (by omega)
      · exact digitChar_ne_dot (by omega)
      · exact digitChar_ne_dot (by omega)
      · exact digitChar_ne_dot (by omega)
    have htl : (pad4 k ++ ext).toList = (pad4 k).toList ++ '.' :: tail := by
      show (pad4 k ++ ext).data = (pad4 k).data ++ '.' :: tail
      rw [String.data_append]
      rw [show ext.data = '.' :: tail from hl]
    have hlen4 : (pad4 k).toList.length = 4 := by
      rw [pad4_toList h0 hk]
      rfl
    have htlen : 1 ≤ tail.length := by
      rw [hl] at hlen
      simpa using hlen
    have hcond : 0 < (pad4 k).toList.length ∧
        (pad4 k).toList.length <
          ((pad4 k).toList ++ '.' :: tail).length - 1 := by
      simp only [List.length_append, List.length_cons, hlen4]
      omega
    unfold pySuffix
    rw [htl]
    dsimp only
    rw [lastDotIdx_append hdigs htail']
    dsimp only
    rw [if_pos hcond, List.drop_left]
    rw [show ('.' :: tail) = ext.toList from hl.symm]
    rfl

theorem targetName_fixed {k : Int} (h0 : 0 ≤ k) (hk : k ≤ 9999) {nm : String}
    (hok : extOk (pyLower (pySuffix nm))) :
    targetName k (targetName k nm) = targetName k nm := by
  unfold targetName
  rw [pySuffix_pad_ext h0 hk hok, pyLower_idem]

/-! ## The planned target list: length, membership, sortedness, fixed point -/

theorem targetsFrom_length : ∀ (files : List String) (start : Int),
    (targetsFrom start files).length = files.length := by
  intro files
  induction files with
  | nil => intro start; rfl
  | cons nm rest ih =>
    intro start
    simp [targetsFrom, ih]

theorem mem_targetsFrom : ∀ {files : List String} {start : Int} {t : String},
    t ∈ targetsFrom start files →
      ∃ j : Nat, j < files.length ∧
        t = targetName (start + (j : Int)) (files.getD j "") := by
  intro files
  induction files with
  | nil => intro start t ht; simp [targetsFrom] at ht
  | cons nm rest ih =>
    intro start t ht
    simp only [targetsFrom, List.mem_cons] at ht
    rcases ht with rfl | ht
    · exact ⟨0, by simp, by simp⟩
    · obtain ⟨j, hj, he⟩ := ih ht
      refine ⟨j + 1, by simpa using hj, ?_⟩
      rw [he, List.getD_cons_succ]
      have harith : start + 1 + (j : Int) = start + ((j + 1 : Nat) : Int) := by
        push_cast
        ring
      rw [harith]

theorem targetName_toList (i : Int) (nm : String) :
    (targetName i nm).toList = (pad4 i).toList ++ (pyLower (pySuffix nm)).toList :=
  String.data_append _ _

theorem targetsFrom_sorted :
    ∀ (files : List String) (start : Int), 0 ≤ start →
      start + files.length ≤ 10000 →
      List.Sorted pyLe (targetsFrom start files) := by
  intro files
  induction files with
  | nil => intro start _ _; exact List.sorted_nil
  | cons nm rest ih =>
    intro start h0 hub
    have hub' : start + 1 + (rest.length : Int) ≤ 10000 := by
      simp only [List.length_cons] at hub
      push_cast at hub ⊢
      omega
    show List.Sorted pyLe (targetName start nm :: targetsFrom (start + 1) rest)
    rw [List.sorted_cons]
    refine ⟨?_, ih (start + 1) (by omega) hub'⟩
    intro t ht
    obtain ⟨j, hj, rfl⟩ := mem_targetsFrom ht
    unfold pyLe
    apply charsLt_asymm
    rw [targetName_toList, targetName_toList]
    have hjb : start + 1 + (j : Int) ≤ 9999 := by omega
    have hlen : (pad4 start).toList.length =
        (pad4 (start + 1 + (j : Int))).toList.length := by
      rw [pad4_toList h0 (by omega), pad4_toList (by omega) hjb]
      rfl
    exact charsLt_append_of_lt _ _ _ _ hlen (pad4_lt h0 (by omega) hjb)

theorem renameLoop_all_already (failsOn : List String) (dryRun : Bool) :
    ∀ (files : List String) (i : Int) (es : List Entry),
      (∀ j : Nat, j < files.length →
        files.getD j "" = targetName (i + (j : Int)) (files.getD j "")) →
      renameLoop failsOn dryRun files i es =
        ⟨es, files.map Outcome.alreadyNamed, 0, 0⟩ := by
  intro files
  induction files with
  | nil => intro i es _; rfl
  | cons nm rest ih =>
    intro i es h
    have h0 : nm = targetName i nm := by
      have h1 := h 0 (by simp)
      simpa using h1
    rw [renameLoop_step_already failsOn dryRun nm rest i es h0,
      ih (i + 1) es ?_]
    · rfl
    · intro j hj
      have h2 := h (j + 1) (by simpa using hj)
      rw [List.getD_cons_succ] at h2
      have harith : i + ((j + 1 : Nat) : Int) = i + 1 + (j : Int) := by
        push_cast
        ring
      rw [harith] at h2
      exact h2

theorem targetsFrom_self (files : List String) (start : Int) (h0 : 0 ≤ start)
    (hub : start + files.length ≤ 10000)
    (hmem : ∀ nm ∈ files, extOk (pyLower (pySuffix nm))) :
    ∀ j : Nat, j < (targetsFrom start files).length →
      (targetsFrom start files).getD j "" =
        targetName (start + (j : Int)) ((targetsFrom start files).getD j "") := by
  intro j hj
  rw [targetsFrom_length] at hj
  rw [targetsFrom_getD files start j hj]
  have hm : files.getD j "" ∈ files := by
    rw [List.getD_eq_getElem _ _ hj]
    exact List.getElem_mem hj
  exact (targetName_fixed (by omega) (by omega) (hmem _ hm)).symm

/-! ## Eligible names through a rename -/

/-- The names the enumeration would pick up for a given extension set,
unsorted. -/
def eligNames (exts : List String) (es : List Entry) : List String :=
  (es.filter (isImageEntry exts)).map Entry.name

theorem imageFilesSorted_eq_sort_eligNames (exts : List String)
    (es : List Entry) :
    imageFilesSorted exts es = sortNames (eligNames exts es) := rfl

theorem entryExists_false {es : List Entry} {t : String}
    (h : entryExists es t = false) : ∀ e ∈ es, e.name ≠ t := by
  intro e he
  have h2 := List.any_eq_false.mp h e he
  simpa using h2

theorem renameEntry_of_not_mem : ∀ (es : List Entry) (nm t : String),
    nm ∉ es.map Entry.name → renameEntry es nm t = es := by
  intro es nm t h
  induction es with
  | nil => rfl
  | cons x xs ih =>
    simp only [List.map_cons, List.mem_cons, not_or] at h
    unfold renameEntry
    simp only [List.map_cons]
    rw [if_neg (fun he => h.1 he.symm)]
    rw [show List.map
        (fun e => if e.name = nm then { e with name := t } else e) xs =
      renameEntry xs nm t from rfl]
    rw [ih h.2]

theorem mem_name_renameEntry : ∀ (es : List Entry) (nm t y : String),
    y ∈ (renameEntry es nm t).map Entry.name →
      y ∈ es.map Entry.name ∨ y = t := by
  intro es nm t y h
  induction es with
  | nil => simp [renameEntry] at h
  | cons x xs ih =>
    unfold renameEntry at h
    simp only [List.map_cons, List.map_map, List.mem_cons] at h
    rcases h with h | h
    · by_cases hx : x.name = nm
      · rw [if_pos hx] at h
        exact Or.inr h
      · rw [if_neg hx] at h
        exact Or.inl (by simp [h])
    · have h2 : y ∈ (renameEntry xs nm t).map Entry.name := by
        unfold renameEntry
        simpa [List.map_map] using h
      rcases ih h2 with h3 | h3
      · exact Or.inl (by simp [List.mem_cons]; right; simpa using h3)
      · exact Or.inr h3

theorem renameEntry_names_nodup : ∀ (es : List Entry) (nm t : String),
    (es.map Entry.name).Nodup → entryExists es t = false →
    ((renameEntry es nm t).map Entry.name).Nodup := by
  intro es nm t hnod hex
  induction es with
  | nil => exact List.nodup_nil
  | cons x xs ih =>
    simp only [List.map_cons, List.nodup_cons] at hnod
    have hex' : entryExists xs t = false := by
      unfold entryExists
      rw [List.any_eq_false]
      intro e he
      simpa using List.any_eq_false.mp hex e (List.mem_cons_of_mem x he)
    have hxt : x.name ≠ t := entryExists_false hex x (List.mem_cons_self x xs)
    have ihx := ih hnod.2 hex'
    unfold renameEntry
    simp only [List.map_cons, List.nodup_cons]
    refine ⟨?_, by
      rw [show List.map
          (fun e => if e.name = nm then { e with name := t } else e) xs =
        renameEntry xs nm t from rfl]
      exact ihx⟩
    intro hmem
    have hmem' : (if x.name = nm then ({ x with name := t } : Entry)
        else x).name ∈ (renameEntry xs nm t).map Entry.name := by
      unfold renameEntry
      simpa [List.map_map] using hmem
    by_cases hx : x.name = nm
    · rw [if_pos hx] at hmem'
      have hmem2 : t ∈ (renameEntry xs nm t).map Entry.name := by
        simpa using hmem'
      rw [renameEntry_of_not_mem xs nm t (hx ▸ hnod.1)] at hmem2
      simp only [List.mem_map] at hmem2
      obtain ⟨e, he, hne⟩ := hmem2
      exact entryExists_false hex e (List.mem_cons_of_mem x he) hne
    · rw [if_neg hx] at hmem'
      rcases mem_name_renameEntry xs nm t _ hmem' with h3 | h3
      · exact hnod.1 h3
      · exact hxt h3

theorem cons_diff_of_not_mem : ∀ (rs : List String) (a : String)
    (l : List String), a ∉ rs → (a :: l).diff rs = a :: l.diff rs := by
  intro rs
  induction rs with
  | nil => intro a l _; rfl
  | cons r rs ih =>
    intro a l h
    simp only [List.mem_cons, not_or] at h
    rw [List.diff_cons, List.diff_cons]
    rw [List.erase_cons_tail (by simpa using h.1)]
    exact ih a (l.erase r) h.2

theorem diff_self_nil : ∀ l : List String, l.diff l = [] := by
  intro l
  induction l with
  | nil => rfl
  | cons a l ih =>
    rw [List.diff_cons, List.erase_cons_head]
    exact ih

theorem eligPresent_renameEntry {exts : List String} {es : List Entry}
    {nm t r : String}
    (hne : r ≠ nm)
    (h : ∃ e ∈ es, e.name = r ∧ isImageEntry exts e = true) :
    ∃ e ∈ renameEntry es nm t, e.name = r ∧
      isImageEntry exts e = true := by
  obtain ⟨e, he, hr, helig⟩ := h
  refine ⟨e, ?_, hr, helig⟩
  have hfix : (if e.name = nm then ({ e with name := t } : Entry) else e) = e :=
    if_neg (by rw [hr]; exact hne)
  unfold renameEntry
  exact hfix ▸ List.mem_map_of_mem _ he

theorem eligNames_renameEntry (exts : List String) :
    ∀ (es : List Entry) (nm t : String) (e : Entry),
      (es.map Entry.name).Nodup → e ∈ es → e.name = nm →
      isImageEntry exts e = true →
      isImageEntry exts ⟨t, e.isFile⟩ = true →
      List.Perm (eligNames exts (renameEntry es nm t))
        (t :: (eligNames exts es).erase nm) := by
  intro es
  induction es with
  | nil =>
    intro nm t e _ he
    simp at he
  | cons x xs ih =>
    intro nm t e hnod he hen helig hnew
    simp only [List.map_cons, List.nodup_cons] at hnod
    by_cases hx : x.name = nm
    · have hex : e = x := by
        rcases List.mem_cons.mp he with rfl | hxs
        · rfl
        · exact absurd (hx ▸ hen ▸ List.mem_map_of_mem Entry.name hxs) hnod.1
      subst hex
      have hrest : renameEntry xs nm t = xs :=
        renameEntry_of_not_mem xs nm t (hx ▸ hnod.1)
      have hstep : renameEntry (e :: xs) nm t = ⟨t, e.isFile⟩ :: xs := by
        unfold renameEntry
        simp only [List.map_cons]
        rw [if_pos hx]
        rw [show List.map
            (fun z => if z.name = nm then { z with name := t } else z) xs =
          renameEntry xs nm t from rfl, hrest]
      rw [hstep]
      unfold eligNames
      rw [List.filter_cons, List.filter_cons, if_pos hnew, if_pos helig]
      simp only [List.map_cons]
      rw [hx, List.erase_cons_head]
    · have hxe : e ∈ xs := by
        rcases List.mem_cons.mp he with rfl | hxs
        · exact absurd hen hx
        · exact hxs
      have hstep : renameEntry (x :: xs) nm t = x :: renameEntry xs nm t := by
        unfold renameEntry
        simp only [List.map_cons]
        rw [if_neg hx]
      rw [hstep]
      have hperm := ih nm t e hnod.2 hxe hen helig hnew
      unfold eligNames at hperm ⊢
      rw [List.filter_cons, List.filter_cons]
      by_cases hxelig : isImageEntry exts x = true
      · rw [if_pos hxelig, if_pos hxelig]
        simp only [List.map_cons]
        rw [List.erase_cons_tail (by simpa using hx)]
        exact (hperm.cons x.name).trans (List.Perm.swap t x.name _)
      · rw [if_neg hxelig, if_neg hxelig]
        exact hperm

/-! ## State after a collision-free live run -/

theorem loop_final_elig (exts : List String)
    (hexts : ∀ ext ∈ exts, extOk ext) :
    ∀ (files : List String) (i : Int) (es : List Entry),
      (es.map Entry.name).Nodup →
      files.Nodup →
      (∀ nm ∈ files, ∃ e ∈ es, e.name = nm ∧
        isImageEntry exts e = true) →
      (∀ o ∈ (renameLoop [] false files i es).outcomes, o.isCollision = false) →
      0 ≤ i → i + files.length ≤ 10000 →
      List.Perm (eligNames exts (renameLoop [] false files i es).final)
        (targetsFrom i files ++ (eligNames exts es).diff files) := by
  intro files
  induction files with
  | nil =>
    intro i es _ _ _ _ _ _
    show List.Perm (eligNames exts es) (targetsFrom i [] ++ (eligNames exts es).diff [])
    rw [List.diff_nil]
    exact List.Perm.refl _
  | cons nm rest ih =>
    intro i es hnodE hnodF hpres hnc h0 hub
    obtain ⟨e, he, hen, helig⟩ := hpres nm (List.mem_cons_self _ _)
    have hnm_rest : nm ∉ rest := (List.nodup_cons.mp hnodF).1
    have hnodF' : rest.Nodup := (List.nodup_cons.mp hnodF).2
    have hub' : i + 1 + (rest.length : Int) ≤ 10000 := by
      simp only [List.length_cons] at hub
      push_cast at hub ⊢
      omega
    have hnmelig : nm ∈ eligNames exts es := by
      unfold eligNames
      exact hen ▸ List.mem_map_of_mem _ (List.mem_filter.mpr ⟨he, helig⟩)
    by_cases h1 : nm = targetName i nm
    · rw [renameLoop_step_already [] false nm rest i es h1] at hnc ⊢
      dsimp only at hnc ⊢
      have hnc' : ∀ o ∈ (renameLoop [] false rest (i + 1) es).outcomes,
          o.isCollision = false :=
        fun o ho => hnc o (List.mem_cons_of_mem _ ho)
      have hperm := ih (i + 1) es hnodE hnodF'
        (fun r hr => hpres r (List.mem_cons_of_mem _ hr)) hnc' (by omega) hub'
      refine hperm.trans ?_
      have hsplit : List.Perm ((eligNames exts es).diff rest)
          (nm :: (eligNames exts es).diff (nm :: rest)) := by
        rw [List.diff_cons]
        have hp1 : List.Perm (eligNames exts es) (nm :: (eligNames exts es).erase nm) :=
          List.perm_cons_erase hnmelig
        have hp2 := hp1.diff_right rest
        rw [cons_diff_of_not_mem rest nm _ hnm_rest] at hp2
        exact hp2
      have hmid := List.Perm.append_left (targetsFrom (i + 1) rest) hsplit
      refine hmid.trans ?_
      show List.Perm
        (targetsFrom (i + 1) rest ++ nm :: (eligNames exts es).diff (nm :: rest))
        (targetName i nm :: targetsFrom (i + 1) rest ++
          (eligNames exts es).diff (nm :: rest))
      rw [← h1]
      exact List.perm_middle
    · have h2 : entryExists es (targetName i nm) = false := by
        cases h2c : entryExists es (targetName i nm) with
        | false => rfl
        | true =>
          exfalso
          rw [renameLoop_step_collision [] false nm rest i es h1 h2c] at hnc
          have h3 := hnc (.collision nm (targetName i nm))
            (List.mem_cons_self _ _)
          simp [Outcome.isCollision] at h3
      rw [renameLoop_step_renamed [] nm rest i es h1 h2 rfl] at hnc ⊢
      dsimp only at hnc ⊢
      have helig2 := helig
      unfold isImageEntry at helig2
      rw [Bool.and_eq_true] at helig2
      have hfile : e.isFile = true := helig2.1
      have hextm : pyLower (pySuffix nm) ∈ exts := by
        have hc := helig2.2
        rw [hen] at hc
        exact List.mem_of_elem_eq_true hc
      have hik : i ≤ 9999 := by
        simp only [List.length_cons] at hub
        push_cast at hub
        omega
      have hsuf : pySuffix (targetName i nm) = pyLower (pySuffix nm) := by
        unfold targetName
        exact pySuffix_pad_ext h0 hik (hexts _ hextm)
      have hnew : isImageEntry exts
          ⟨targetName i nm, e.isFile⟩ = true := by
        unfold isImageEntry
        dsimp only
        rw [hfile, Bool.true_and, hsuf, pyLower_idem]
        exact List.elem_eq_true_of_mem hextm
      have hnodE' := renameEntry_names_nodup es nm (targetName i nm) hnodE h2
      have hpres' : ∀ r ∈ rest, ∃ e2 ∈ renameEntry es nm (targetName i nm),
          e2.name = r ∧ isImageEntry exts e2 = true := by
        intro r hr
        have hrne : r ≠ nm := fun hh => hnm_rest (hh ▸ hr)
        exact eligPresent_renameEntry hrne (hpres r (List.mem_cons_of_mem _ hr))
      have hnc' : ∀ o ∈ (renameLoop [] false rest (i + 1)
          (renameEntry es nm (targetName i nm))).outcomes,
          o.isCollision = false :=
        fun o ho => hnc o (List.mem_cons_of_mem _ ho)
      have hperm := ih (i + 1) (renameEntry es nm (targetName i nm)) hnodE'
        hnodF' hpres' hnc' (by omega) hub'
      refine hperm.trans ?_
      have heligperm := eligNames_renameEntry exts es nm (targetName i nm) e hnodE
        he hen helig hnew
      have htrest : targetName i nm ∉ rest := by
        intro hmem
        obtain ⟨e2, he2, hname2, _⟩ := hpres _ (List.mem_cons_of_mem _ hmem)
        exact entryExists_false h2 e2 he2 hname2
      have hd := heligperm.diff_right rest
      rw [cons_diff_of_not_mem rest _ _ htrest] at hd
      have hmid := List.Perm.append_left (targetsFrom (i + 1) rest) hd
      refine hmid.trans ?_
      show List.Perm (targetsFrom (i + 1) rest ++
          targetName i nm :: ((eligNames exts es).erase nm).diff rest)
        (targetName i nm :: targetsFrom (i + 1) rest ++
          (eligNames exts es).diff (nm :: rest))
      rw [List.diff_cons]
      exact List.perm_middle

theorem files_ext_mem (exts : List String) (es : List Entry) :
    ∀ nm ∈ imageFilesSorted exts es,
      pyLower (pySuffix nm) ∈ exts := by
  intro nm hnm
  rw [imageFilesSorted_eq_sort_eligNames] at hnm
  have h2 : nm ∈ eligNames exts es := (sortNames_perm _).mem_iff.mp hnm
  unfold eligNames at h2
  simp only [List.mem_map] at h2
  obtain ⟨e, he, hname⟩ := h2
  have he2 := List.mem_filter.mp he
  have hc := he2.2
  unfold isImageEntry at hc
  rw [Bool.and_eq_true] at hc
  rw [← hname]
  exact List.mem_of_elem_eq_true hc.2

theorem run1_files_eq (exts : List String)
    (hexts : ∀ ext ∈ exts, extOk ext) (es : List Entry) (start : Int)
    (hnod : (es.map Entry.name).Nodup) (h0 : 0 ≤ start)
    (hub : start + ((imageFilesSorted exts es).length : Int) ≤ 10000)
    (hnc : ∀ o ∈ (renameLoop [] false (imageFilesSorted exts es)
        start es).outcomes, o.isCollision = false) :
    imageFilesSorted exts
        (renameLoop [] false (imageFilesSorted exts es)
          start es).final =
      targetsFrom start (imageFilesSorted exts es) := by
  have hfiles_nodup := files_nodup exts hnod
  have hfilesperm : List.Perm (imageFilesSorted exts es)
      (eligNames exts es) := by
    rw [imageFilesSorted_eq_sort_eligNames]
    exact sortNames_perm _
  have hpres : ∀ nm ∈ imageFilesSorted exts es,
      ∃ e ∈ es, e.name = nm ∧ isImageEntry exts e = true := by
    intro nm hnm
    have h2 : nm ∈ eligNames exts es := hfilesperm.mem_iff.mp hnm
    unfold eligNames at h2
    simp only [List.mem_map] at h2
    obtain ⟨e, he, hname⟩ := h2
    have he2 := List.mem_filter.mp he
    exact ⟨e, he2.1, hname, he2.2⟩
  have hperm := loop_final_elig exts hexts (imageFilesSorted exts es) start es
    hnod hfiles_nodup hpres hnc h0 hub
  have hdiff : (eligNames exts es).diff (imageFilesSorted exts es) = [] := by
    have hp : List.Perm
        ((eligNames exts es).diff (imageFilesSorted exts es))
        ((imageFilesSorted exts es).diff
          (imageFilesSorted exts es)) :=
      List.Perm.diff hfilesperm.symm (List.Perm.refl _)
    rw [diff_self_nil] at hp
    exact hp.eq_nil
  rw [hdiff, List.append_nil] at hperm
  rw [imageFilesSorted_eq_sort_eligNames]
  exact List.eq_of_perm_of_sorted ((sortNames_perm _).trans hperm)
    (sortNames_sorted _) (targetsFrom_sorted _ start h0 hub)

/-! ## The simple loop agrees with the guarded loop when no collision occurs -/

theorem filter_ne_of_not_exists : ∀ (es : List Entry) (t : String),
    entryExists es t = false →
    es.filter (fun e => e.name != t) = es := by
  intro es t
  induction es with
  | nil => intro _; rfl
  | cons x xs ih =>
    intro h
    have hx : x.name ≠ t := entryExists_false h x (List.mem_cons_self x xs)
    have h' : entryExists xs t = false := by
      unfold entryExists
      rw [List.any_eq_false]
      intro e he
      simpa using List.any_eq_false.mp h e (List.mem_cons_of_mem x he)
    rw [List.filter_cons, if_pos (by simpa using hx), ih h']

theorem simpleLoop_eq_renameLoop :
    ∀ (files : List String) (i : Int) (es : List Entry),
      (∀ o ∈ (renameLoop [] false files i es).outcomes, o.isCollision = false) →
      simpleLoop [] files i es =
        ((renameLoop [] false files i es).final,
         (renameLoop [] false files i es).outcomes) := by
  intro files
  induction files with
  | nil => intro i es _; rfl
  | cons nm rest ih =>
    intro i es hnc
    by_cases h1 : nm = targetName i nm
    · rw [renameLoop_step_already [] false nm rest i es h1] at hnc ⊢
      rw [simpleLoop_step_already [] nm rest i es h1]
      dsimp only at hnc ⊢
      rw [ih (i + 1) es (fun o ho => hnc o (List.mem_cons_of_mem _ ho))]
    · have h2 : entryExists es (targetName i nm) = false := by
        cases h2c : entryExists es (targetName i nm) with
        | false => rfl
        | true =>
          exfalso
          rw [renameLoop_step_collision [] false nm rest i es h1 h2c] at hnc
          have h3 := hnc (.collision nm (targetName i nm))
            (List.mem_cons_self _ _)
          simp [Outcome.isCollision] at h3
      have hguard : (es.any fun e => e.name == targetName i nm && !e.isFile) =
          false := by
        rw [List.any_eq_false]
        intro e he
        have h5 := entryExists_false h2 e he
        intro hcontra
        rw [Bool.and_eq_true] at hcontra
        exact h5 (by simpa using hcontra.1)
      have h4 : posixRename es nm (targetName i nm) =
          some (renameEntry es nm (targetName i nm)) := by
        unfold posixRename
        rw [if_neg (by rw [hguard]; exact Bool.false_ne_true)]
        rw [filter_ne_of_not_exists es _ h2]
        rfl
      rw [renameLoop_step_renamed [] nm rest i es h1 h2 rfl] at hnc ⊢
      rw [simpleLoop_step_renamed [] nm rest i es _ h1 rfl h4]
      dsimp only at hnc ⊢
      rw [ih (i + 1) _ (fun o ho => hnc o (List.mem_cons_of_mem _ ho))]

theorem simpleLoop_all_already (failsOn : List String) :
    ∀ (files : List String) (i : Int) (es : List Entry),
      (∀ j : Nat, j < files.length →
        files.getD j "" = targetName (i + (j : Int)) (files.getD j "")) →
      simpleLoop failsOn files i es = (es, files.map Outcome.alreadyNamed) := by
  intro files
  induction files with
  | nil => intro i es _; rfl
  | cons nm rest ih =>
    intro i es h
    have h0 : nm = targetName i nm := by
      have h1 := h 0 (by simp)
      simpa using h1
    rw [simpleLoop_step_already failsOn nm rest i es h0, ih (i + 1) es ?_]
    · rfl
    · intro j hj
      have h2 := h (j + 1) (by simpa using hj)
      rw [List.getD_cons_succ] at h2
      have harith : i + ((j + 1 : Nat) : Int) = i + 1 + (j : Int) := by
        push_cast
        ring
      rw [harith] at h2
      exact h2

/-- C3 counterexample: in the full variant, with a directory entry
`0001.jpg` next to file `b.jpg`, the first run collision-skips its only
entry and the second run classifies it as a collision skip again; in the
simple variant, with files `0000.png` and `0001.png`, the first run records
no collision skip (it performs no collision check and replaces `0001.png`)
yet the second run still renames a file.  So in neither variant does every
entry of a second run with the same arguments resolve to an already-named
skip. -/
theorem c3_counterexample :
    (rename_images (rename_images
        (.dir [⟨"0001.jpg", false⟩, ⟨"b.jpg", true⟩]) 1 false []).finalFolder
        1 false []).outcomes =
      [.collision "b.jpg" "0001.jpg"] ∧
    ((rename_images (rename_images
        (.dir [⟨"0001.jpg", false⟩, ⟨"b.jpg", true⟩]) 1 false []).finalFolder
        1 false []).outcomes.all Outcome.isAlready) = false ∧
    ((rename_images_in_folder
        (.dir [⟨"0000.png", true⟩, ⟨"0001.png", true⟩]) []).outcomes.all
      (fun o => !o.isCollision)) = true ∧
    ((rename_images_in_folder (rename_images_in_folder
        (.dir [⟨"0000.png", true⟩, ⟨"0001.png", true⟩]) []).finalFolder
        []).outcomes.any Outcome.isRenamed) = true ∧
    ((rename_images_in_folder (rename_images_in_folder
        (.dir [⟨"0000.png", true⟩, ⟨"0001.png", true⟩]) []).finalFolder
        []).outcomes.all Outcome.isAlready) = false :=
  ⟨rfl, rfl, rfl, rfl, rfl⟩

/-- C3 amended: rerunning with the same arguments is a no-op second run in
either variant provided no entry's target name is occupied by another entry
at the moment of that entry's rename (for the full variant: its own run
records no collision skips; for the simple variant, which has no collision
check: the full variant's collision-checking loop over the same sorted file
list, starting at 1, would record none) and every assigned sequence number
lies in 0..9999.  Under those conditions every entry of the second run
resolves to an already-named skip and the filesystem is unchanged; the full
variant in addition makes zero rename calls and reports zero renamed. -/
theorem c3_second_run_noop (es : List Entry) (start : Int)
    (hnod : (es.map Entry.name).Nodup) :
    ((0 ≤ start) →
     (start + ((imageFilesSorted IMAGE_EXTENSIONS es).length : Int) ≤ 10000) →
     (∀ o ∈ (rename_images (.dir es) start false []).outcomes,
       o.isCollision = false) →
     (rename_images (rename_images (.dir es) start false []).finalFolder
         start false []).finalFolder =
       (rename_images (.dir es) start false []).finalFolder ∧
     (∀ o ∈ (rename_images (rename_images (.dir es) start false []).finalFolder
         start false []).outcomes, o.isAlready = true) ∧
     (rename_images (rename_images (.dir es) start false []).finalFolder
         start false []).renameCalls = 0 ∧
     (rename_images (rename_images (.dir es) start false []).finalFolder
         start false []).summaryCount = 0) ∧
    (((1 : Int) + ((imageFilesSorted SIMPLE_EXTENSIONS es).length : Int) ≤
       10000) →
     (∀ o ∈ (renameLoop [] false (imageFilesSorted SIMPLE_EXTENSIONS es)
         1 es).outcomes, o.isCollision = false) →
     (rename_images_in_folder
         (rename_images_in_folder (.dir es) []).finalFolder []).finalFolder =
       (rename_images_in_folder (.dir es) []).finalFolder ∧
     (∀ o ∈ (rename_images_in_folder
         (rename_images_in_folder (.dir es) []).finalFolder []).outcomes,
       o.isAlready = true)) := by
  constructor
  · intro h0 hub hnc
    by_cases hemp : (imageFilesSorted IMAGE_EXTENSIONS es).isEmpty = true
    · have hr1 : rename_images (.dir es) start false [] =
          ⟨.dir es, [], false, 0, 0⟩ := by
        simp only [rename_images]
        rw [if_pos hemp]
      rw [hr1]
      dsimp only
      rw [hr1]
      refine ⟨rfl, ?_, rfl, rfl⟩
      intro o ho
      simp at ho
    · have hr1 : rename_images (.dir es) start false [] =
          ⟨.dir (renameLoop [] false (imageFilesSorted IMAGE_EXTENSIONS es)
              start es).final,
           (renameLoop [] false (imageFilesSorted IMAGE_EXTENSIONS es)
             start es).outcomes,
           false,
           (renameLoop [] false (imageFilesSorted IMAGE_EXTENSIONS es)
             start es).count,
           (renameLoop [] false (imageFilesSorted IMAGE_EXTENSIONS es)
             start es).calls⟩ := by
        simp only [rename_images]
        rw [if_neg hemp]
        simp
      have hnc2 : ∀ o ∈ (renameLoop [] false
          (imageFilesSorted IMAGE_EXTENSIONS es) start es).outcomes,
          o.isCollision = false := by
        intro o ho
        apply hnc
        rw [hr1]
        exact ho
      have hfeq := run1_files_eq IMAGE_EXTENSIONS image_extensions_ok es start
        hnod h0 hub hnc2
      have hlen : (targetsFrom start
          (imageFilesSorted IMAGE_EXTENSIONS es)).length =
          (imageFilesSorted IMAGE_EXTENSIONS es).length := targetsFrom_length _ _
      have hemp2 : (imageFilesSorted IMAGE_EXTENSIONS
          (renameLoop [] false (imageFilesSorted IMAGE_EXTENSIONS es)
            start es).final).isEmpty = false := by
        rw [hfeq]
        cases h : targetsFrom start (imageFilesSorted IMAGE_EXTENSIONS es) with
        | nil =>
          exfalso
          have h2 := congrArg List.length h
          rw [hlen] at h2
          have h3 : imageFilesSorted IMAGE_EXTENSIONS es = [] :=
            List.length_eq_zero.mp h2
          rw [h3] at hemp
          exact hemp rfl
        | cons a l => rfl
      have hself := targetsFrom_self (imageFilesSorted IMAGE_EXTENSIONS es)
        start h0 hub
        (fun nm hnm => image_extensions_ok _
          (files_ext_mem IMAGE_EXTENSIONS es nm hnm))
      have hloop2 : renameLoop [] false (imageFilesSorted IMAGE_EXTENSIONS
          (renameLoop [] false (imageFilesSorted IMAGE_EXTENSIONS es)
            start es).final) start
          (renameLoop [] false (imageFilesSorted IMAGE_EXTENSIONS es)
            start es).final =
          ⟨(renameLoop [] false (imageFilesSorted IMAGE_EXTENSIONS es)
              start es).final,
           (imageFilesSorted IMAGE_EXTENSIONS
             (renameLoop [] false (imageFilesSorted IMAGE_EXTENSIONS es)
               start es).final).map Outcome.alreadyNamed, 0, 0⟩ := by
        apply renameLoop_all_already
        rw [hfeq]
        exact hself
      have hr2 : rename_images (.dir (renameLoop [] false
          (imageFilesSorted IMAGE_EXTENSIONS es) start es).final)
          start false [] =
          ⟨.dir (renameLoop [] false (imageFilesSorted IMAGE_EXTENSIONS es)
              start es).final,
           (imageFilesSorted IMAGE_EXTENSIONS
             (renameLoop [] false (imageFilesSorted IMAGE_EXTENSIONS es)
               start es).final).map Outcome.alreadyNamed, false, 0, 0⟩ := by
        simp only [rename_images]
        rw [if_neg (by rw [hemp2]; exact Bool.false_ne_true), hloop2]
        simp
      rw [hr1]
      dsimp only
      rw [hr2]
      refine ⟨rfl, ?_, rfl, rfl⟩
      intro o ho
      dsimp only at ho
      rw [List.mem_map] at ho
      obtain ⟨nm, _, rfl⟩ := ho
      rfl
  · intro hub hnc
    by_cases hemp : (imageFilesSorted SIMPLE_EXTENSIONS es).isEmpty = true
    · have hr1 : rename_images_in_folder (.dir es) [] =
          ⟨.dir es, [], .ranOk⟩ := by
        simp only [rename_images_in_folder]
        rw [if_pos hemp]
      rw [hr1]
      dsimp only
      rw [hr1]
      refine ⟨rfl, ?_⟩
      intro o ho
      simp at ho
    · have heq := simpleLoop_eq_renameLoop
        (imageFilesSorted SIMPLE_EXTENSIONS es) 1 es hnc
      have hr1 : rename_images_in_folder (.dir es) [] =
          ⟨.dir (renameLoop [] false (imageFilesSorted SIMPLE_EXTENSIONS es)
              1 es).final,
           (renameLoop [] false (imageFilesSorted SIMPLE_EXTENSIONS es)
             1 es).outcomes,
           .ranOk⟩ := by
        simp only [rename_images_in_folder]
        rw [if_neg hemp, heq]
      have hfeq := run1_files_eq SIMPLE_EXTENSIONS simple_extensions_ok es 1
        hnod (by omega) hub hnc
      have hlen : (targetsFrom 1
          (imageFilesSorted SIMPLE_EXTENSIONS es)).length =
          (imageFilesSorted SIMPLE_EXTENSIONS es).length := targetsFrom_length _ _
      have hemp2 : (imageFilesSorted SIMPLE_EXTENSIONS
          (renameLoop [] false (imageFilesSorted SIMPLE_EXTENSIONS es)
            1 es).final).isEmpty = false := by
        rw [hfeq]
        cases h : targetsFrom 1 (imageFilesSorted SIMPLE_EXTENSIONS es) with
        | nil =>
          exfalso
          have h2 := congrArg List.length h
          rw [hlen] at h2
          have h3 : imageFilesSorted SIMPLE_EXTENSIONS es = [] :=
            List.length_eq_zero.mp h2
          rw [h3] at hemp
          exact hemp rfl
        | cons a l => rfl
      have hself := targetsFrom_self (imageFilesSorted SIMPLE_EXTENSIONS es) 1
        (by omega) hub
        (fun nm hnm => simple_extensions_ok _
          (files_ext_mem SIMPLE_EXTENSIONS es nm hnm))
      have hloop2 : simpleLoop [] (imageFilesSorted SIMPLE_EXTENSIONS
          (renameLoop [] false (imageFilesSorted SIMPLE_EXTENSIONS es)
            1 es).final) 1
          (renameLoop [] false (imageFilesSorted SIMPLE_EXTENSIONS es)
            1 es).final =
          ((renameLoop [] false (imageFilesSorted SIMPLE_EXTENSIONS es)
              1 es).final,
           (imageFilesSorted SIMPLE_EXTENSIONS
             (renameLoop [] false (imageFilesSorted SIMPLE_EXTENSIONS es)
               1 es).final).map Outcome.alreadyNamed) := by
        apply simpleLoop_all_already
        rw [hfeq]
        exact hself
      have hr2 : rename_images_in_folder (.dir (renameLoop [] false
          (imageFilesSorted SIMPLE_EXTENSIONS es) 1 es).final) [] =
          ⟨.dir (renameLoop [] false (imageFilesSorted SIMPLE_EXTENSIONS es)
              1 es).final,
           (imageFilesSorted SIMPLE_EXTENSIONS
             (renameLoop [] false (imageFilesSorted SIMPLE_EXTENSIONS es)
               1 es).final).map Outcome.alreadyNamed,
           .ranOk⟩ := by
        simp only [rename_images_in_folder]
        rw [if_neg (by rw [hemp2]; exact Bool.false_ne_true), hloop2]
      rw [hr1]
      dsimp only
      rw [hr2]
      refine ⟨rfl, ?_⟩
      intro o ho
      dsimp only at ho
      rw [List.mem_map] at ho
      obtain ⟨nm, _, rfl⟩ := ho
      rfl

/-- Witness for the amended C3: two plain files renamed on the first run of
either variant; the second run leaves the folder unchanged, and the full
variant makes no rename calls. -/
theorem c3_witness :
    (rename_images (rename_images (.dir [⟨"b.jpg", true⟩, ⟨"a.jpg", true⟩])
        1 false []).finalFolder 1 false []).finalFolder =
      (rename_images (.dir [⟨"b.jpg", true⟩, ⟨"a.jpg", true⟩])
        1 false []).finalFolder ∧
    (rename_images (rename_images (.dir [⟨"b.jpg", true⟩, ⟨"a.jpg", true⟩])
        1 false []).finalFolder 1 false []).renameCalls = 0 ∧
    (rename_images_in_folder (rename_images_in_folder
        (.dir [⟨"b.jpg", true⟩, ⟨"a.jpg", true⟩]) []).finalFolder
        []).finalFolder =
      (rename_images_in_folder
        (.dir [⟨"b.jpg", true⟩, ⟨"a.jpg", true⟩]) []).finalFolder := by
  have h := c3_second_run_noop [⟨"b.jpg", true⟩, ⟨"a.jpg", true⟩] 1
    (by decide)
  exact ⟨(h.1 (by decide) (by decide) (by decide)).1,
         (h.1 (by decide) (by decide) (by decide)).2.2.1,
         (h.2 (by decide) (by decide)).1⟩

end BatchRename
